import Mathlib

/-!
# Verification of the `sort-keys` rule of eslint-plugin-sort-keys-plus

Shallow embedding of `lib/rules/sort-keys.js` (current revision) and
`lib/rules/utils/report-utils.js`.  JavaScript strings are modelled as lists
of UTF-16 code units (`JStr := List Nat`); JavaScript `Map`s as association
lists with the constructor's last-entry-wins / `set` semantics; the per-node
traversal state (`Stack`) and the `Property` visitor are modelled as explicit
state-passing functions.  External collaborators (the `natural-compare`
package, `ast-utils.getStaticPropertyName`, the esquery matcher and the
source-text token scan) are modelled from the specification, as marked on
each definition.
-/

namespace SortKeysPlus

/-- JavaScript string: a sequence of UTF-16 code units. -/
abbrev JStr := List Nat

/-- Convenience conversion of Lean string literals into `JStr` for concrete
inputs (code points of the characters, which for the ASCII inputs used here
coincide with UTF-16 code units). -/
def js (s : String) : JStr := s.data.map Char.toNat

/-- Modelled from the spec: the host language's `String.prototype.toLowerCase`
applied to rule key names, restricted to the ASCII range that the rule's
documentation and tests exercise (`A`-`Z` map to `a`-`z`, all other units are
fixed). -/
def jsLowerUnit (n : Nat) : Nat := if 65 ≤ n ∧ n ≤ 90 then n + 32 else n

/-- Modelled from the spec: `String.prototype.toUpperCase` on the ASCII range
(`a`-`z` map to `A`-`Z`, all other units are fixed). -/
def jsUpperUnit (n : Nat) : Nat := if 97 ≤ n ∧ n ≤ 122 then n - 32 else n

/-- `s.toLowerCase()` (ASCII model). -/
def jsToLowerCase (s : JStr) : JStr := s.map jsLowerUnit

/-- `s.toUpperCase()` (ASCII model). -/
def jsToUpperCase (s : JStr) : JStr := s.map jsUpperUnit

/-- Lexicographic comparison of lists under an element comparison. -/
def lexCmp (f : α → α → Ordering) : List α → List α → Ordering
  | [], [] => .eq
  | [], _ :: _ => .lt
  | _ :: _, [] => .gt
  | a :: as, b :: bs =>
    match f a b with
    | .eq => lexCmp f as bs
    | o => o

/-- JavaScript string comparison `a < b / a <= b`: lexicographic on UTF-16
code units. -/
def jsStrCmp : JStr → JStr → Ordering := lexCmp compare

/-- JavaScript `a <= b` on strings. -/
def jsStrLe (a b : JStr) : Bool := jsStrCmp a b != Ordering.gt

/-- Token of the natural-order comparison: a numeric run (by value) or a
single non-digit unit (by ordinal). -/
inductive NatTok
  | num (v : Nat)
  | chr (c : Nat)
deriving DecidableEq, Repr

/-- Is `n` the code of an ASCII digit? -/
def isDigitCode (n : Nat) : Bool := 48 ≤ n && n ≤ 57

/-- Modelled from the spec: tokenizer of the `natural-compare` dependency
(which is not part of this repository).  Splits a string into maximal digit
runs, valued numerically, and single non-digit units, valued by ordinal.
The accumulator holds the value of the digit run being read. -/
def naturalTokensAux : List Nat → Option Nat → List NatTok
  | [], none => []
  | [], some v => [.num v]
  | c :: rest, none =>
    if isDigitCode c then naturalTokensAux rest (some (c - 48))
    else .chr c :: naturalTokensAux rest none
  | c :: rest, some v =>
    if isDigitCode c then naturalTokensAux rest (some (v * 10 + (c - 48)))
    else .num v :: .chr c :: naturalTokensAux rest none

/-- The natural-order key of a string: its token decomposition. -/
def naturalTokens (s : JStr) : List NatTok := naturalTokensAux s none

/-- Comparison of natural-order tokens: numeric runs by value, other units
by ordinal, numeric runs ordered before non-digit units. -/
def natTokCmp : NatTok → NatTok → Ordering
  | .num m, .num n => compare m n
  | .num _, .chr _ => .lt
  | .chr _, .num _ => .gt
  | .chr c, .chr d => compare c d

/-- Modelled from the spec: `naturalCompare(a, b)` of the `natural-compare`
dependency — numeric runs compared by numeric value, non-numeric runs by
ordinal. -/
def naturalCompare (a b : JStr) : Ordering :=
  lexCmp natTokCmp (naturalTokens a) (naturalTokens b)

/-- `isValidOrders.asc`: `a <= b`. -/
def asc (a b : JStr) : Bool := jsStrLe a b

/-- `isValidOrders.ascI`: `a.toLowerCase() <= b.toLowerCase()`. -/
def ascI (a b : JStr) : Bool := jsStrLe (jsToLowerCase a) (jsToLowerCase b)

/-- `isValidOrders.ascN`: `naturalCompare(a, b) <= 0`. -/
def ascN (a b : JStr) : Bool := naturalCompare a b != Ordering.gt

/-- `isValidOrders.ascIN`: `naturalCompare(a.toLowerCase(), b.toLowerCase()) <= 0`. -/
def ascIN (a b : JStr) : Bool :=
  naturalCompare (jsToLowerCase a) (jsToLowerCase b) != Ordering.gt

/-- `reverseOrder`: flips the two arguments of an order test. -/
def reverseOrder (isValidOrder : α → α → β) : α → α → β := fun a b => isValidOrder b a

/-- `isValidOrders.desc`, built by `reverseOrder` as in the source. -/
def desc : JStr → JStr → Bool := reverseOrder asc

/-- `isValidOrders.descI`. -/
def descI : JStr → JStr → Bool := reverseOrder ascI

/-- `isValidOrders.descN`. -/
def descN : JStr → JStr → Bool := reverseOrder ascN

/-- `isValidOrders.descIN`. -/
def descIN : JStr → JStr → Bool := reverseOrder ascIN

/-- `isValidAllCapsTest`: `null` when both names share the same all-caps
classification, otherwise whether the first one is the all-caps one. -/
def isValidAllCapsTest (a b : JStr) : Option Bool :=
  let aIsAllCaps := a == jsToUpperCase a
  let bIsAllCaps := b == jsToUpperCase b
  if aIsAllCaps == bIsAllCaps then none else some (aIsAllCaps && !bIsAllCaps)

/-- `returnNull`. -/
def returnNull : α → α → Option Bool := fun _ _ => none

/-- The `first`/`last`/`ignore` option values for the grouping predicates. -/
inductive FLI
  | first
  | last
  | ignore
deriving DecidableEq, Repr

/-- `firstLastTest`: keeps the base test for `first`, reverses its arguments
for `last`, and always returns `null` for `ignore`. -/
def firstLastTest (opt : FLI) (isValidOrder : α → α → Option Bool) : α → α → Option Bool :=
  match opt with
  | .first => isValidOrder
  | .last => reverseOrder isValidOrder
  | .ignore => returnNull

/-- JavaScript `Array.prototype.indexOf`: index of the first occurrence,
`-1` when absent. -/
def jsIndexOf (a : JStr) : List JStr → Int
  | [] => -1
  | x :: xs =>
    if x = a then 0
    else
      let r := jsIndexOf a xs
      if r = -1 then -1 else r + 1

/-- `validCustomOrderComparator(order)`: both names declared — valid iff the
first one's index is not larger; exactly one declared — the declared one
comes first; neither declared — `null` (`bIndex < 0 && null`). -/
def validCustomOrderComparator (order : List JStr) (a b : JStr) : Option Bool :=
  let aIndex := jsIndexOf a order
  let bIndex := jsIndexOf b order
  if 0 ≤ aIndex then
    if 0 ≤ bIndex then some (decide (aIndex ≤ bIndex))
    else some true
  else if bIndex < 0 then none else some false

/--
Key node of a `Property`, as far as name extraction distinguishes them:
a plain identifier, a string literal, a numeric literal (carrying its
`String(value)` text), a computed key that is a bare identifier, or any
other computed (non-constant) expression.
-/
inductive KeyNode
  | ident (name : JStr)
  | strLit (value : JStr)
  | numLit (text : JStr)
  | computedIdent (name : JStr)
  | computedOther
deriving DecidableEq, Repr

/-- Modelled from the spec: `ast-utils.getStaticPropertyName` (the
`lib/rules/utils/ast-utils.js` module is not among the provided sources) —
returns the literal/static key text if the key is a constant-valued
identifier, string, or numeric literal, and `null` for non-constant computed
expressions. -/
def getStaticPropertyName : KeyNode → Option JStr
  | .ident n => some n
  | .strLit v => some v
  | .numLit t => some t
  | .computedIdent _ => none
  | .computedOther => none

/-- `getPropertyName`: the static name if there is one, otherwise
`(key && key.name) || null` — the identifier's name of a computed bare
identifier key (an empty name is falsy and yields `null`). -/
def getPropertyName (key : KeyNode) : Option JStr :=
  match getStaticPropertyName key with
  | some s => some s
  | none =>
    match key with
    | .computedIdent n => if n = [] then none else some n
    | _ => none

/-- An `overrides` array item: optional custom message, declared key order,
optional parent-key scoping, optional esquery scoping (selectors abstracted
as identifiers resolved by an external match oracle), and the ignore flag.
An absent `order` is modelled as `[]`. -/
structure Override where
  message : Option JStr
  order : List JStr
  properties : Option (List JStr)
  esquery : Option Nat
  ignore : Bool
deriving DecidableEq, Repr

/-- Resolved rule options: direction, case-insensitivity, natural order,
minimum key count, blank-line grouping, single-line exemption, the two
grouping options and the overrides list. -/
inductive OrderDir
  | asc
  | desc
deriving DecidableEq, Repr

structure Config where
  order : OrderDir
  insensitive : Bool
  natural : Bool
  minKeys : Nat
  allowLineSeparatedGroups : Bool
  ignoreSingleLine : Bool
  allCaps : FLI
  shorthand : FLI
  overrides : List Override
deriving DecidableEq, Repr

/-- `isValidOrders[order + (insensitive ? 'I' : '') + (natural ? 'N' : '')]`:
the configuration-time comparator lookup. -/
def isValidOrderAlpha (cfg : Config) : JStr → JStr → Bool :=
  match cfg.order, cfg.insensitive, cfg.natural with
  | .asc, false, false => asc
  | .asc, true, false => ascI
  | .asc, false, true => ascN
  | .asc, true, true => ascIN
  | .desc, false, false => desc
  | .desc, true, false => descI
  | .desc, false, true => descN
  | .desc, true, true => descIN

/-- The frame's all-caps grouping predicate
(`firstLastTest(allCaps, isValidAllCapsTest)`). -/
def isValidOrderAllCapsOf (cfg : Config) : JStr → JStr → Option Bool :=
  firstLastTest cfg.allCaps isValidAllCapsTest

/-- `combination(arr, minLength)`: every combination of the array's items (in
array order), restricted to length at least `minLength`, built by the same
`reduce` as the source. -/
def combination (arr : List α) (minLength : Nat) : List (List α) :=
  (arr.foldl (fun out item => out ++ [[item]] ++ out.map (fun c => c ++ [item]))
      ([] : List (List α))).filter (fun c => minLength ≤ c.length)

/-- JavaScript default `Array.prototype.sort` on strings: sorts by the
UTF-16 lexicographic order (insertion sort; the order is total and
antisymmetric, so any sort produces this result). -/
def insertSorted (a : JStr) : List JStr → List JStr
  | [] => [a]
  | b :: bs => if jsStrLe a b then a :: b :: bs else b :: insertSorted a bs

def jsSortStrings : List JStr → List JStr
  | [] => []
  | a :: as => insertSorted a (jsSortStrings as)

/-- `Array.prototype.join(',')`. -/
def joinComma : List JStr → JStr
  | [] => []
  | [x] => x
  | x :: xs => x ++ 44 :: joinComma xs

/-- JavaScript `Map` with `JStr` keys, as an association list with at most
one binding per key. -/
abbrev OMap := List (JStr × Override)

def omapGet (m : OMap) (k : JStr) : Option Override :=
  (m.find? (fun p => p.1 == k)).map (fun p => p.2)

def omapSet (m : OMap) (k : JStr) (v : Override) : OMap :=
  match m with
  | [] => [(k, v)]
  | p :: ps => if p.1 == k then (k, v) :: ps else p :: omapSet ps k v

/-- `propOverrides.get(name)`: the `Map` built by
`overrides.flatMap(item => item.properties.map(p => [p, item]))` binds each
declared parent key to its override, later entries overwriting earlier ones. -/
def propOverridesGet (overrides : List Override) (name : JStr) : Option Override :=
  (overrides.flatMap (fun item =>
      match item.properties with
      | some props => props.map (fun p => (p, item))
      | none => [])).foldl
    (fun acc pr => if pr.1 = name then some pr.2 else acc) none

/-- Registration of one combination key for one override: bind the key to
the override unless an override with a strictly-shorter-or-equal declared
order is already bound to it. -/
def registerCombo (o : Override) (m : OMap) (combo : List JStr) : OMap :=
  let key := joinComma combo
  match omapGet m key with
  | some existing =>
    if o.order.length < existing.order.length then omapSet m key o else m
  | none => omapSet m key o

/-- The `otherOverrides` map: for every override without `esquery` or
`properties` scoping, every combination (of length at least `minKeys`) of its
sorted declared order is bound (by its comma-joined text) to the override,
keeping the override with the shortest declared order on collisions. -/
def otherOverridesBuild (overrides : List Override) (minKeys : Nat) : OMap :=
  overrides.foldl
    (fun m override =>
      if override.esquery.isSome || override.properties.isSome then m
      else
        (combination (jsSortStrings override.order) minKeys).foldl
          (registerCombo override) m)
    []

/-- The syntactic position of an `ObjectExpression` relative to its parent:
the value of a (possibly computed) `Property`, or anything else. -/
inductive ParentCtx
  | property (computed : Bool) (key : KeyNode)
  | other
deriving DecidableEq, Repr

/-- `typeof parentKey.value === 'string' ? parentKey.value : parentKey.name`:
the enclosing entry's name (a numeric-literal or non-identifier key has no
`.name` and yields `undefined`). -/
def parentNameOf : KeyNode → Option JStr
  | .strLit v => some v
  | .ident n => some n
  | .computedIdent n => some n
  | .numLit _ => none
  | .computedOther => none

/-- The parent-key stage of scope resolution: when the object is the value
of a named, non-computed property, look the name up among the `properties`-
scoped overrides. -/
def resolveParentOverride (cfg : Config) (parent : ParentCtx) : Option Override :=
  match parent with
  | .property false key =>
    match parentNameOf key with
    | some n => propOverridesGet cfg.overrides n
    | none => none
  | _ => none

/-- The esquery stage of scope resolution: the first esquery-scoped override
whose selector matches the node (per the external oracle `esqMatch`). -/
def resolveEsqueryOverride (cfg : Config) (esqMatch : Nat → Bool) : Option Override :=
  (cfg.overrides.filter (fun o => o.esquery.isSome)).find? (fun o =>
    match o.esquery with
    | some sel => esqMatch sel
    | none => false)

/--
Scope resolution for one `ObjectExpression` (the override-selection part of
the `ObjectExpression` visitor): parent-key lookup first, then the first
esquery override whose selector matches (per the external oracle
`esqMatch`), then the `otherOverrides` key-subset lookup keyed by the
comma-joined sorted named-key list.  Returns the computed `parentName`
together with the governing override, if any.
-/
def resolveOverride (cfg : Config) (parent : ParentCtx) (esqMatch : Nat → Bool)
    (names : List JStr) : Option JStr × Option Override :=
  let pn : Option JStr :=
    match parent with
    | .property false key => parentNameOf key
    | _ => none
  let o1 : Option Override := resolveParentOverride cfg parent
  let o2 : Option Override :=
    match o1 with
    | some o => some o
    | none => resolveEsqueryOverride cfg esqMatch
  let o3 : Option Override :=
    match o2 with
    | some o => some o
    | none =>
      let m := otherOverridesBuild cfg.overrides cfg.minKeys
      if m.length > 0 then omapGet m (joinComma (jsSortStrings names)) else none
  (pn, o3)

/-- One `Property` entry of an object: its key, shorthand flag, whether the
external token scan reports a blank line between it and the previous entry
(Modelled from the spec: `hasBlankLineBetweenNodes` reads tokens from the
external source-text accessor), and whether its parent is an
`ObjectPattern`. -/
structure PropNode where
  key : KeyNode
  shorthand : Bool
  blankBefore : Bool
  inObjectPattern : Bool
deriving DecidableEq, Repr

/-- `isValidShorthandTest`: `null` when both entries share the same shorthand
flag, otherwise whether the first one is the shorthand one. -/
def isValidShorthandTest (a b : PropNode) : Option Bool :=
  if (!a.shorthand) == (!b.shorthand) then none
  else some (a.shorthand && !b.shorthand)

/-- The frame's shorthand grouping predicate
(`firstLastTest(shorthand, isValidShorthandTest)`). -/
def isValidOrderShorthandOf (cfg : Config) : PropNode → PropNode → Option Bool :=
  firstLastTest cfg.shorthand isValidShorthandTest

/-- One member of an `ObjectExpression`: a property or a spread element. -/
inductive Entry
  | prop (p : PropNode)
  | spread
deriving DecidableEq, Repr

/-- The per-object traversal frame (`Stack`, minus the `upper` link, which
the runner keeps implicitly). -/
structure Stack where
  ignore : Bool
  prevNode : Option PropNode
  prevBlankLine : Bool
  prevName : Option JStr
  prevNameSkipped : Bool
  numKeys : Nat
  parentName : Option JStr
  override : Option Override
deriving DecidableEq, Repr

/-- The message ids of `meta.messages`. -/
inductive MessageId
  | sortKeys
  | sortKeysAllCaps
  | sortKeysOverride
  | sortKeysShorthand
deriving DecidableEq, Repr

/-- An emitted violation: message id (or the override's custom message, when
it declared a non-empty one), the offending and preceding names, and whether
an edit-script (fix) is attached.  Presentation-only message data (direction
labels, parent name) is not modelled. -/
structure Report where
  messageId : MessageId
  thisName : JStr
  prevName : JStr
  overrideMessage : Option JStr
  hasFix : Bool
deriving DecidableEq, Repr

/-- `createReport` of `report-utils.js`: uses the override message verbatim
when one is given and truthy (non-empty), otherwise the message id, and
attaches the swap fixer exactly when `fixable` holds. -/
def createReport (mid : MessageId) (thisName prevName : JStr)
    (overrideMessage : Option JStr) (fixable : Bool) : Report :=
  { messageId := mid
    thisName := thisName
    prevName := prevName
    overrideMessage :=
      match overrideMessage with
      | some m => if m = [] then none else some m
      | none => none
    hasFix := fixable }

/-- `stack.isValidOrderOverride && stack.isValidOrderOverride(a, b)`:
`undefined` (no verdict) without an override. -/
def overrideVerdict (ov : Option Override) (a b : JStr) : Option Bool :=
  match ov with
  | some o => validCustomOrderComparator o.order a b
  | none => none

/-- `stack.override && stack.override.ignore`. -/
def overrideIgnores : Option Override → Bool
  | some o => o.ignore
  | none => false

/-- `stack.override.message` (or `undefined` without an override). -/
def overrideMessageOf : Option Override → Option JStr
  | some o => o.message
  | none => none

/-- `names` of the `ObjectExpression` visitor:
`node.properties.map(getPropertyName).filter(name => name !== null)`
(`getPropertyName` of a spread element is `null`). -/
def entryNames (entries : List Entry) : List JStr :=
  entries.filterMap (fun e =>
    match e with
    | .prop p => getPropertyName p.key
    | .spread => none)

/-- The `ObjectExpression` visitor: resolves the governing override and
pushes a fresh frame; `ignore` is inherited from the parent frame or set by
the single-line exemption. -/
def objectEnter (cfg : Config) (upperIgnore : Bool) (parent : ParentCtx)
    (esqMatch : Nat → Bool) (startLine endLine : Nat) (entries : List Entry) : Stack :=
  let r := resolveOverride cfg parent esqMatch (entryNames entries)
  { ignore := upperIgnore || (cfg.ignoreSingleLine && startLine == endLine)
    prevNode := none
    prevBlankLine := false
    prevName := none
    prevNameSkipped := false
    numKeys := entries.length
    parentName := r.1
    override := r.2 }

/-- The `SpreadElement` visitor (for spreads directly inside an
`ObjectExpression`): resets the previous node, name, and skipped flag. -/
def spreadStep (st : Stack) : Stack :=
  { st with prevNode := none, prevName := none, prevNameSkipped := false }

/--
The `Property` visitor: updates the frame and possibly emits one report for
the pair `(prevName, thisName)`, consulting the override comparator, the
all-caps grouping, the shorthand grouping and the base comparator exactly as
the source does.
-/
def propertyStep (cfg : Config) (st : Stack) (node : PropNode) : Stack × Option Report :=
  if node.inObjectPattern || st.ignore || overrideIgnores st.override then
    (st, none)
  else
    let prevNode := st.prevNode
    let prevName := st.prevName
    let fixable := !st.prevNameSkipped
    let numKeys := st.numKeys
    let thisName := getPropertyName node.key
    let isBlank :=
      st.prevBlankLine ||
        (cfg.allowLineSeparatedGroups &&
          (match prevNode with
           | some _ => node.blankBefore
           | none => false))
    let st1 : Stack :=
      { st with
        prevNode := some node
        prevNameSkipped := thisName.isNone
        prevName :=
          match thisName with
          | some n => some n
          | none => st.prevName }
    if cfg.allowLineSeparatedGroups && isBlank then
      ({ st1 with prevBlankLine := thisName.isNone }, none)
    else
      match prevName, thisName with
      | some pn, some tn =>
        if numKeys < cfg.minKeys then (st1, none)
        else
          let isValidOverride := overrideVerdict st.override pn tn
          if isValidOverride == some false then
            (st1, some (createReport .sortKeysOverride tn pn
              (overrideMessageOf st.override) fixable))
          else if isValidOverride == some true then (st1, none)
          else
            let isValidAllCaps := isValidOrderAllCapsOf cfg pn tn
            if isValidAllCaps == some false then
              (st1, some (createReport .sortKeysAllCaps tn pn none fixable))
            else
              let isValidShorthand :=
                match prevNode with
                | some p => isValidOrderShorthandOf cfg p node
                | none => none
              if isValidShorthand == some false then
                (st1, some (createReport .sortKeysShorthand tn pn none fixable))
              else if isValidAllCaps == some true || isValidShorthand == some true then
                (st1, none)
              else if !(isValidOrderAlpha cfg pn tn) then
                (st1, some (createReport .sortKeys tn pn none fixable))
              else (st1, none)
      | _, _ => (st1, none)

/-- Dispatch of one entry to the `Property` or `SpreadElement` visitor. -/
def stepEntry (cfg : Config) (st : Stack) : Entry → Stack × Option Report
  | .prop p => propertyStep cfg st p
  | .spread => (spreadStep st, none)

/-- Runs the visitors over the entries of one object, recording the report
(or its absence) for each entry. -/
def runSteps (cfg : Config) : Stack → List Entry → List (Option Report)
  | _, [] => []
  | st, e :: es =>
    let r := stepEntry cfg st e
    r.2 :: runSteps cfg r.1 es

/-- One whole frame: enter the object, then visit each entry. -/
def runObject (cfg : Config) (upperIgnore : Bool) (parent : ParentCtx)
    (esqMatch : Nat → Bool) (startLine endLine : Nat) (entries : List Entry) :
    List (Option Report) :=
  runSteps cfg (objectEnter cfg upperIgnore parent esqMatch startLine endLine entries) entries

/-- The violations an object produces, in entry order. -/
def reportsOf (cfg : Config) (upperIgnore : Bool) (parent : ParentCtx)
    (esqMatch : Nat → Bool) (startLine endLine : Nat) (entries : List Entry) :
    List Report :=
  (runObject cfg upperIgnore parent esqMatch startLine endLine entries).filterMap id

/--
The amended per-pair decision chain, written out as the priority order the
code actually implements: override comparator first (`true` short-circuits,
`false` reports), then the all-caps grouping (`false` reports), then the
shorthand grouping (`false` reports — even when the all-caps grouping
returned `true`), then — only when neither grouping produced a verdict —
the base comparator.
-/
def decisionChain (cfg : Config) (ov : Option Override) (prevNode node : PropNode)
    (pn tn : JStr) (fixable : Bool) : Option Report :=
  match overrideVerdict ov pn tn with
  | some false =>
    some (createReport .sortKeysOverride tn pn (overrideMessageOf ov) fixable)
  | some true => none
  | none =>
    match isValidOrderAllCapsOf cfg pn tn, isValidOrderShorthandOf cfg prevNode node with
    | some false, _ => some (createReport .sortKeysAllCaps tn pn none fixable)
    | _, some false => some (createReport .sortKeysShorthand tn pn none fixable)
    | none, none =>
      if isValidOrderAlpha cfg pn tn then none
      else some (createReport .sortKeys tn pn none fixable)
    | _, _ => none

/-- Keep the better of a candidate override and the current pick: a strictly
shorter declared order wins, ties keep the earlier pick. -/
def betterUpd (acc : Option Override) (o : Override) : Option Override :=
  match acc with
  | none => some o
  | some e => if o.order.length < e.order.length then some o else some e

/-- Reference reading of the `otherOverrides` lookup of one key: fold over
the declared overrides, keeping (by `betterUpd`) those eligible ones some
combination of whose sorted order joins to the key. -/
def pickBest (minKeys : Nat) (k : JStr) (overrides : List Override) : Option Override :=
  overrides.foldl
    (fun acc o =>
      if o.esquery.isSome || o.properties.isSome then acc
      else if k ∈ (combination (jsSortStrings o.order) minKeys).map joinComma then
        betterUpd acc o
      else acc)
    none

/--
Written from the spec's words (§4.4 step 3): among the overrides that
declare only an explicit order, select the one whose declared order contains
the node's sorted named-key sequence as a subsequence of its own sorted
order, subject to the minimum-entries threshold, preferring a strictly
shorter declared order (first declared wins ties).
-/
def specSelectOther (overrides : List Override) (minKeys : Nat) (names : List JStr) :
    Option Override :=
  overrides.foldl
    (fun acc o =>
      if (o.esquery.isNone && o.properties.isNone) &&
          (decide (List.Sublist (jsSortStrings names) (jsSortStrings o.order)) &&
            decide (minKeys ≤ names.length)) then
        betterUpd acc o
      else acc)
    none

/--
Written from the spec's words (§4.4): the scope-resolution precedence —
an override keyed by the enclosing non-computed parent key name wins; else
the first structural-pattern override whose selector matches; else the
key-subset selection `specSelectOther`.
-/
def specResolveOverride (cfg : Config) (parent : ParentCtx) (esqMatch : Nat → Bool)
    (names : List JStr) : Option Override :=
  match resolveParentOverride cfg parent with
  | some o => some o
  | none =>
    match resolveEsqueryOverride cfg esqMatch with
    | some o => some o
    | none => specSelectOther cfg.overrides cfg.minKeys names

/-! ## Comparator algebra -/

theorem nat_compare_swap (m n : Nat) : (compare m n).swap = compare n m := by
  rcases Nat.lt_trichotomy m n with h | h | h
  · rw [Nat.compare_eq_lt.2 h, Nat.compare_eq_gt.2 h]; rfl
  · subst h; rw [Nat.compare_eq_eq.2 rfl]; rfl
  · rw [Nat.compare_eq_gt.2 h, Nat.compare_eq_lt.2 h]; rfl

theorem lexCmp_swap (f : α → α → Ordering) (hf : ∀ x y, (f x y).swap = f y x) :
    ∀ xs ys : List α, (lexCmp f xs ys).swap = lexCmp f ys xs := by
  intro xs
  induction xs with
  | nil => intro ys; cases ys <;> rfl
  | cons a as ih =>
    intro ys
    cases ys with
    | nil => rfl
    | cons b bs =>
      have hba : f b a = (f a b).swap := (hf a b).symm
      cases hab : f a b with
      | lt => simp [lexCmp, hab, hba, Ordering.swap]
      | eq =>
        simp only [lexCmp, hab, hba, Ordering.swap]
        exact ih bs
      | gt => simp [lexCmp, hab, hba, Ordering.swap]

theorem lexCmp_eq_iff (f : α → α → Ordering) (hf : ∀ x y, f x y = .eq ↔ x = y) :
    ∀ xs ys : List α, lexCmp f xs ys = .eq ↔ xs = ys := by
  intro xs
  induction xs with
  | nil => intro ys; cases ys <;> simp [lexCmp]
  | cons a as ih =>
    intro ys
    cases ys with
    | nil => simp [lexCmp]
    | cons b bs =>
      cases hab : f a b with
      | lt =>
        have hne : a ≠ b := fun h => by
          rw [h, (hf b b).2 rfl] at hab; cases hab
        simp [lexCmp, hab, hne]
      | eq =>
        obtain rfl : a = b := (hf a b).1 hab
        simp [lexCmp, hab, ih bs]
      | gt =>
        have hne : a ≠ b := fun h => by
          rw [h, (hf b b).2 rfl] at hab; cases hab
        simp [lexCmp, hab, hne]

theorem jsStrCmp_swap (a b : JStr) : (jsStrCmp a b).swap = jsStrCmp b a :=
  lexCmp_swap compare nat_compare_swap a b

theorem jsStrCmp_eq_iff (a b : JStr) : jsStrCmp a b = .eq ↔ a = b :=
  lexCmp_eq_iff compare (fun _ _ => Nat.compare_eq_eq) a b

theorem natTokCmp_swap (x y : NatTok) : (natTokCmp x y).swap = natTokCmp y x := by
  cases x <;> cases y <;> simp [natTokCmp, nat_compare_swap] <;> rfl

theorem natTokCmp_eq_iff (x y : NatTok) : natTokCmp x y = .eq ↔ x = y := by
  cases x <;> cases y <;> simp [natTokCmp, Nat.compare_eq_eq, Ordering.swap]

theorem naturalCompare_swap (a b : JStr) : (naturalCompare a b).swap = naturalCompare b a :=
  lexCmp_swap natTokCmp natTokCmp_swap _ _

theorem naturalCompare_eq_iff (a b : JStr) :
    naturalCompare a b = .eq ↔ naturalTokens a = naturalTokens b :=
  lexCmp_eq_iff natTokCmp natTokCmp_eq_iff _ _

/-- Two mirror-image comparisons that are not ties disagree as `<=` tests. -/
theorem le_test_antisymm {o1 o2 : Ordering} (hswap : o1.swap = o2) (hne : o1 ≠ .eq) :
    (o1 != Ordering.gt) = !(o2 != Ordering.gt) := by
  subst hswap
  cases o1 with
  | lt => rfl
  | eq => exact absurd rfl hne
  | gt => rfl

theorem jsStrLe_refl (a : JStr) : jsStrLe a a = true := by
  have h : jsStrCmp a a = .eq := (jsStrCmp_eq_iff a a).2 rfl
  unfold jsStrLe
  rw [h]
  rfl

theorem jsStrLe_antisymm_test {a b : JStr} (h : a ≠ b) : jsStrLe a b = !jsStrLe b a := by
  have hswap := jsStrCmp_swap a b
  have hne : jsStrCmp a b ≠ .eq := fun hc => h ((jsStrCmp_eq_iff a b).1 hc)
  exact le_test_antisymm hswap hne

theorem naturalLe_refl (a : JStr) : (naturalCompare a a != Ordering.gt) = true := by
  have h : naturalCompare a a = .eq := (naturalCompare_eq_iff a a).2 rfl
  rw [h]
  rfl

theorem naturalLe_antisymm_test {a b : JStr} (h : naturalTokens a ≠ naturalTokens b) :
    (naturalCompare a b != Ordering.gt) = !(naturalCompare b a != Ordering.gt) := by
  have hswap := naturalCompare_swap a b
  have hne : naturalCompare a b ≠ .eq := fun hc => h ((naturalCompare_eq_iff a b).1 hc)
  exact le_test_antisymm hswap hne

/-! ## Claim C9 — comparator reflexivity, antisymmetry and descending mirror -/

/--
C9: every comparator mode (ascending/descending × case-sensitive/insensitive
× lexicographic/natural) is reflexive; whenever the two names differ under
the mode's normalization (identity for the plain modes, lower-casing for the
insensitive modes, the natural-order token decomposition — additionally
lower-cased for `ascIN`/`descIN` — for the natural modes), the two mirror
applications disagree; and each descending variant is the argument-swap of
the corresponding ascending one.
-/
theorem claim_C9 (a b : JStr) :
    (asc a a = true ∧ ascI a a = true ∧ ascN a a = true ∧ ascIN a a = true ∧
      desc a a = true ∧ descI a a = true ∧ descN a a = true ∧ descIN a a = true) ∧
    (desc a b = asc b a ∧ descI a b = ascI b a ∧
      descN a b = ascN b a ∧ descIN a b = ascIN b a) ∧
    ((a ≠ b → asc a b = !asc b a) ∧
      (jsToLowerCase a ≠ jsToLowerCase b → ascI a b = !ascI b a) ∧
      (naturalTokens a ≠ naturalTokens b → ascN a b = !ascN b a) ∧
      (naturalTokens (jsToLowerCase a) ≠ naturalTokens (jsToLowerCase b) →
        ascIN a b = !ascIN b a)) ∧
    ((a ≠ b → desc a b = !desc b a) ∧
      (jsToLowerCase a ≠ jsToLowerCase b → descI a b = !descI b a) ∧
      (naturalTokens a ≠ naturalTokens b → descN a b = !descN b a) ∧
      (naturalTokens (jsToLowerCase a) ≠ naturalTokens (jsToLowerCase b) →
        descIN a b = !descIN b a)) := by
  refine ⟨⟨jsStrLe_refl a, jsStrLe_refl _, naturalLe_refl a, naturalLe_refl _,
      jsStrLe_refl a, jsStrLe_refl _, naturalLe_refl a, naturalLe_refl _⟩,
    ⟨rfl, rfl, rfl, rfl⟩, ⟨?_, ?_, ?_, ?_⟩, ⟨?_, ?_, ?_, ?_⟩⟩
  · exact fun h => jsStrLe_antisymm_test h
  · exact fun h => jsStrLe_antisymm_test h
  · exact fun h => naturalLe_antisymm_test h
  · exact fun h => naturalLe_antisymm_test h
  · exact fun h => jsStrLe_antisymm_test (Ne.symm h)
  · exact fun h => jsStrLe_antisymm_test (Ne.symm h)
  · exact fun h => naturalLe_antisymm_test (Ne.symm h)
  · exact fun h => naturalLe_antisymm_test (Ne.symm h)

/-- Witness for C9 at `a = "a10"`, `b = "a9"` (code-unit lists), discharging
each normalization-difference hypothesis concretely. -/
theorem claim_C9_witness :
    (([97, 49, 48] : JStr) ≠ [97, 57]) ∧
    asc [97, 49, 48] [97, 57] = !asc [97, 57] [97, 49, 48] ∧
    ascI [97, 49, 48] [97, 57] = !ascI [97, 57] [97, 49, 48] ∧
    ascN [97, 49, 48] [97, 57] = !ascN [97, 57] [97, 49, 48] ∧
    ascIN [97, 49, 48] [97, 57] = !ascIN [97, 57] [97, 49, 48] ∧
    descN [97, 49, 48] [97, 57] = !descN [97, 57] [97, 49, 48] :=
  ⟨by decide,
    (claim_C9 [97, 49, 48] [97, 57]).2.2.1.1 (by decide),
    (claim_C9 [97, 49, 48] [97, 57]).2.2.1.2.1 (by decide),
    (claim_C9 [97, 49, 48] [97, 57]).2.2.1.2.2.1 (by decide),
    (claim_C9 [97, 49, 48] [97, 57]).2.2.1.2.2.2 (by decide),
    (claim_C9 [97, 49, 48] [97, 57]).2.2.2.2.2.1 (by decide)⟩

/-! ## Claim C10 — the all-caps classifier on names without lowercasable letters -/

theorem map_eq_self_iff {f : α → α} {l : List α} :
    l.map f = l ↔ ∀ x ∈ l, f x = x := by
  induction l with
  | nil => simp
  | cons a as ih => simp [ih]

/--
C10: the constant-grouping classifier tests `name === name.toUpperCase()`,
so a name with no lowercasable (ASCII `a`-`z`) units classifies as
constant-style, and pairing it with a name containing a lowercasable unit
produces a definite constant-grouping verdict (for both `first` and `last`
and in either argument order) rather than the `null` that would defer to the
base comparator.
-/
theorem claim_C10 (a b : JStr)
    (ha : ∀ c ∈ a, ¬(97 ≤ c ∧ c ≤ 122))
    (hb : ∃ c ∈ b, 97 ≤ c ∧ c ≤ 122) :
    jsToUpperCase a = a ∧ jsToUpperCase b ≠ b ∧
    firstLastTest .first isValidAllCapsTest a b = some true ∧
    firstLastTest .last isValidAllCapsTest a b = some false ∧
    firstLastTest .first isValidAllCapsTest b a = some false ∧
    firstLastTest .last isValidAllCapsTest b a = some true := by
  have hua : jsToUpperCase a = a := by
    refine map_eq_self_iff.2 (fun c hc => ?_)
    unfold jsUpperUnit
    rw [if_neg (ha c hc)]
  have hub : jsToUpperCase b ≠ b := by
    intro h
    obtain ⟨c, hc, hlow⟩ := hb
    have := map_eq_self_iff.1 h c hc
    unfold jsUpperUnit at this
    rw [if_pos hlow] at this
    omega
  have hacaps : (a == jsToUpperCase a) = true := by
    rw [hua]; exact beq_self_eq_true a
  have hbcaps : (b == jsToUpperCase b) = false := by
    rw [beq_eq_false_iff_ne]
    exact fun h => hub h.symm
  have hab : isValidAllCapsTest a b = some true := by
    unfold isValidAllCapsTest
    rw [hacaps, hbcaps]
    rfl
  have hba : isValidAllCapsTest b a = some false := by
    unfold isValidAllCapsTest
    rw [hacaps, hbcaps]
    rfl
  exact ⟨hua, hub, hab, hba, hba, hab⟩

/-- Witness for C10 at `a = "_"`, `b = "x"`. -/
theorem claim_C10_witness :
    jsToUpperCase [95] = [95] ∧ jsToUpperCase [120] ≠ [120] ∧
    firstLastTest .first isValidAllCapsTest [95] [120] = some true ∧
    firstLastTest .last isValidAllCapsTest [95] [120] = some false ∧
    firstLastTest .first isValidAllCapsTest [120] [95] = some false ∧
    firstLastTest .last isValidAllCapsTest [120] [95] = some true :=
  claim_C10 [95] [120] (by decide) (by decide)

/-- A pair with no previous name is never compared. -/
theorem prevName_none_no_report (cfg : Config) (st : Stack) (p : PropNode)
    (h : st.prevName = none) : (propertyStep cfg st p).2 = none := by
  simp only [propertyStep, h]
  split
  · rfl
  · split
    · rfl
    · split
      · rfl
      · rfl

/-- A pair whose current name is not extractable is never compared. -/
theorem thisName_none_no_report (cfg : Config) (st : Stack) (p : PropNode)
    (h : getPropertyName p.key = none) : (propertyStep cfg st p).2 = none := by
  simp only [propertyStep, h]
  split
  · rfl
  · split
    · rfl
    · cases hp : st.prevName <;> rfl

/-! ## Claim C7 — spread entries reset adjacency -/

/--
C7: immediately after a spread entry resets the frame (previous entry and
previous name cleared), the next property can never be flagged — under any
configuration, including descending order — because the comparison requires
a previous name.
-/
theorem claim_C7 (cfg : Config) (st : Stack) (p : PropNode) :
    (propertyStep cfg (spreadStep st) p).2 = none :=
  prevName_none_no_report cfg (spreadStep st) p rfl

/-! ## Claim C2 — name extraction -/

/--
C2 counterexample: for a computed key whose expression is a bare identifier
(`{ [foo]: 1 }`), `getPropertyName` returns the identifier's name `"foo"`,
not `null` as the claim states.
-/
theorem claim_C2_counterexample :
    getPropertyName (KeyNode.computedIdent [102, 111, 111]) = some [102, 111, 111] := rfl

/--
C2 (amended): name extraction returns the literal/static key text for
constant-valued identifier, string and numeric-literal keys, returns the
identifier's own name for a computed key that is a bare (non-empty)
identifier, and `null` only for other non-constant computed expressions;
a `null` name (on either side of the pair) never participates in an
ordering comparison.
-/
theorem claim_C2 :
    (∀ n, getPropertyName (KeyNode.ident n) = some n) ∧
    (∀ v, getPropertyName (KeyNode.strLit v) = some v) ∧
    (∀ t, getPropertyName (KeyNode.numLit t) = some t) ∧
    (∀ n, n ≠ [] → getPropertyName (KeyNode.computedIdent n) = some n) ∧
    getPropertyName (KeyNode.computedIdent []) = none ∧
    getPropertyName KeyNode.computedOther = none ∧
    (∀ cfg st p, getPropertyName p.key = none → (propertyStep cfg st p).2 = none) ∧
    (∀ cfg st p, st.prevName = none → (propertyStep cfg st p).2 = none) := by
  refine ⟨fun n => rfl, fun v => rfl, fun t => rfl,
    fun n hn => ?_, rfl, rfl, fun cfg st p h => ?_, fun cfg st p h => ?_⟩
  · simp only [getPropertyName, getStaticPropertyName]
    rw [if_neg hn]
  · exact thisName_none_no_report cfg st p h
  · exact prevName_none_no_report cfg st p h

/-- Witness for C2 at concrete inputs. -/
theorem claim_C2_witness :
    getPropertyName (KeyNode.computedIdent [102]) = some [102] ∧
    (propertyStep
      { order := .asc, insensitive := false, natural := false, minKeys := 2,
        allowLineSeparatedGroups := false, ignoreSingleLine := false,
        allCaps := .ignore, shorthand := .ignore, overrides := [] }
      { ignore := false, prevNode := none, prevBlankLine := false,
        prevName := some [97], prevNameSkipped := false, numKeys := 2,
        parentName := none, override := none }
      { key := .computedOther, shorthand := false, blankBefore := false,
        inObjectPattern := false }).2 = none :=
  ⟨claim_C2.2.2.2.1 [102] (by decide),
    claim_C2.2.2.2.2.2.2.1 _ _ _ (by decide)⟩

/-! ## Claim C4 — the custom-order comparator -/

theorem jsIndexOf_of_not_mem {a : JStr} {l : List JStr} (h : a ∉ l) :
    jsIndexOf a l = -1 := by
  induction l with
  | nil => rfl
  | cons x xs ih =>
    have hxa : ¬x = a := fun hx => h (hx ▸ List.mem_cons_self x xs)
    have hmem : a ∉ xs := fun hm => h (List.mem_cons_of_mem x hm)
    unfold jsIndexOf
    rw [if_neg hxa, ih hmem]
    rfl

theorem jsIndexOf_nonneg {a : JStr} {l : List JStr} (h : a ∈ l) :
    0 ≤ jsIndexOf a l := by
  induction l with
  | nil => cases h
  | cons x xs ih =>
    unfold jsIndexOf
    by_cases hxa : x = a
    · rw [if_pos hxa]
    · rw [if_neg hxa]
      have hmem : a ∈ xs := by
        cases h with
        | head => exact absurd rfl hxa
        | tail _ hm => exact hm
      have h0 := ih hmem
      have hne : jsIndexOf a xs ≠ -1 := by omega
      rw [if_neg hne]
      omega

/-- Case analysis of the custom-order comparator by membership of the two
names in the declared order. -/
theorem customOrder_spec (order : List JStr) (a b : JStr) :
    (a ∈ order → b ∈ order →
      validCustomOrderComparator order a b =
        some (decide (jsIndexOf a order ≤ jsIndexOf b order))) ∧
    (a ∈ order → b ∉ order → validCustomOrderComparator order a b = some true) ∧
    (a ∉ order → b ∈ order → validCustomOrderComparator order a b = some false) ∧
    (a ∉ order → b ∉ order → validCustomOrderComparator order a b = none) := by
  refine ⟨fun ha hb => ?_, fun ha hb => ?_, fun ha hb => ?_, fun ha hb => ?_⟩
  · unfold validCustomOrderComparator
    rw [if_pos (jsIndexOf_nonneg ha), if_pos (jsIndexOf_nonneg hb)]
  · unfold validCustomOrderComparator
    have h1 := jsIndexOf_nonneg ha
    have h2 := jsIndexOf_of_not_mem hb
    rw [if_pos h1, if_neg (by omega)]
  · unfold validCustomOrderComparator
    have h1 := jsIndexOf_of_not_mem ha
    have h2 := jsIndexOf_nonneg hb
    rw [if_neg (by omega), if_neg (by omega)]
  · unfold validCustomOrderComparator
    have h1 := jsIndexOf_of_not_mem ha
    have h2 := jsIndexOf_of_not_mem hb
    rw [if_neg (by omega), if_pos (by omega)]

/--
C4: the custom-order comparator built from an override's explicit order —
both names declared: valid iff the first one's index is at most the second
one's; exactly one declared: the declared one is always ordered first (so a
declared-before-undeclared pair is valid and an undeclared-before-declared
pair is a violation, with no appeal to the base comparator); neither
declared: no verdict, deferring to the rest of the chain.
-/
theorem claim_C4 (order : List JStr) (a b : JStr) :
    (a ∈ order → b ∈ order →
      validCustomOrderComparator order a b =
        some (decide (jsIndexOf a order ≤ jsIndexOf b order))) ∧
    (a ∈ order → b ∉ order → validCustomOrderComparator order a b = some true) ∧
    (a ∉ order → b ∈ order → validCustomOrderComparator order a b = some false) ∧
    (a ∉ order → b ∉ order → validCustomOrderComparator order a b = none) :=
  customOrder_spec order a b

/-- Witness for C4 with `order = ["a", "b"]`, `a = "a"`, `b = "z"`. -/
theorem claim_C4_witness :
    validCustomOrderComparator [[97], [98]] [97] [98] = some true ∧
    validCustomOrderComparator [[97], [98]] [97] [122] = some true ∧
    validCustomOrderComparator [[97], [98]] [122] [97] = some false ∧
    validCustomOrderComparator [[97], [98]] [122] [121] = none :=
  ⟨by
      have h := (claim_C4 [[97], [98]] [97] [98]).1 (by decide) (by decide)
      rw [h]; rfl,
    (claim_C4 [[97], [98]] [97] [122]).2.1 (by decide) (by decide),
    (claim_C4 [[97], [98]] [122] [97]).2.2.1 (by decide) (by decide),
    (claim_C4 [[97], [98]] [122] [121]).2.2.2 (by decide) (by decide)⟩

/-! ## Structural lemmas about the traversal step -/

theorem propertyStep_preserves (cfg : Config) (st : Stack) (p : PropNode) :
    (propertyStep cfg st p).1.numKeys = st.numKeys ∧
    (propertyStep cfg st p).1.ignore = st.ignore ∧
    (propertyStep cfg st p).1.override = st.override := by
  simp only [propertyStep]
  repeat' split
  all_goals exact ⟨rfl, rfl, rfl⟩

theorem stepEntry_preserves (cfg : Config) (st : Stack) (e : Entry) :
    (stepEntry cfg st e).1.numKeys = st.numKeys ∧
    (stepEntry cfg st e).1.ignore = st.ignore ∧
    (stepEntry cfg st e).1.override = st.override := by
  cases e with
  | prop p => exact propertyStep_preserves cfg st p
  | spread => exact ⟨rfl, rfl, rfl⟩

/-- Below the minimum-keys threshold the `Property` visitor never reports. -/
theorem propertyStep_min_no_report (cfg : Config) (st : Stack) (p : PropNode)
    (h : st.numKeys < cfg.minKeys) : (propertyStep cfg st p).2 = none := by
  simp only [propertyStep]
  split
  · rfl
  · split
    · rfl
    · cases hp : st.prevName with
      | none => rfl
      | some pn =>
        cases ht : getPropertyName p.key with
        | none => rfl
        | some tn =>
          simp only [if_pos h]

/-! ## Claim C3 — minimum-keys threshold -/

theorem runSteps_min_no_report (cfg : Config) :
    ∀ (es : List Entry) (st : Stack), st.numKeys < cfg.minKeys →
      (runSteps cfg st es).filterMap id = [] := by
  intro es
  induction es with
  | nil => intro st _; rfl
  | cons e es ih =>
    intro st h
    have hnum := (stepEntry_preserves cfg st e).1
    have hrep : (stepEntry cfg st e).2 = none := by
      cases e with
      | prop p => exact propertyStep_min_no_report cfg st p h
      | spread => rfl
    simp only [runSteps]
    rw [List.filterMap_cons, hrep]
    exact ih (stepEntry cfg st e).1 (by rw [hnum]; exact h)

/--
C3: an object with fewer entries than the configured `minKeys` threshold
produces no violation of any kind, regardless of the order of its entries.
-/
theorem claim_C3 (cfg : Config) (ui : Bool) (parent : ParentCtx) (esqMatch : Nat → Bool)
    (sL eL : Nat) (entries : List Entry) (h : entries.length < cfg.minKeys) :
    reportsOf cfg ui parent esqMatch sL eL entries = [] := by
  unfold reportsOf runObject
  exact runSteps_min_no_report cfg entries _ h

/-- Witness for C3: two reverse-ordered entries below a `minKeys` of 3. -/
theorem claim_C3_witness :
    reportsOf
      { order := .asc, insensitive := false, natural := false, minKeys := 3,
        allowLineSeparatedGroups := false, ignoreSingleLine := false,
        allCaps := .ignore, shorthand := .ignore, overrides := [] }
      false .other (fun _ => false) 0 2
      [.prop { key := .ident [98], shorthand := false, blankBefore := false,
               inObjectPattern := false },
       .prop { key := .ident [97], shorthand := false, blankBefore := false,
               inObjectPattern := false }] = [] :=
  claim_C3 _ _ _ _ _ _ _ (by decide)

/-- Anatomy of an emitted report: the frame was not suspended, both names
were extractable, the threshold was met, and the fix flag is exactly the
negation of the previous-name-skipped flag. -/
theorem propertyStep_report_anatomy {cfg : Config} {st : Stack} {p : PropNode} {r : Report}
    (h : (propertyStep cfg st p).2 = some r) :
    p.inObjectPattern = false ∧ st.ignore = false ∧ overrideIgnores st.override = false ∧
    st.prevName.isSome = true ∧ (getPropertyName p.key).isSome = true ∧
    cfg.minKeys ≤ st.numKeys ∧ r.hasFix = !st.prevNameSkipped := by
  simp only [propertyStep] at h
  split at h
  case isTrue => simp at h
  case isFalse hg =>
    simp only [Bool.or_eq_true, not_or, Bool.not_eq_true] at hg
    obtain ⟨⟨h1, h2⟩, h3⟩ := hg
    split at h
    case isTrue => simp at h
    case isFalse hb =>
      cases hp : st.prevName with
      | none => rw [hp] at h; simp at h
      | some pn =>
        rw [hp] at h
        cases ht : getPropertyName p.key with
        | none => rw [ht] at h; simp at h
        | some tn =>
          rw [ht] at h
          by_cases hlt : st.numKeys < cfg.minKeys
          · simp only [if_pos hlt] at h; simp at h
          · simp only [if_neg hlt] at h
            have hmin : cfg.minKeys ≤ st.numKeys := Nat.le_of_not_lt hlt
            by_cases c1 : (overrideVerdict st.override pn tn == some false) = true
            · simp only [if_pos c1] at h
              simp at h
              subst h
              exact ⟨h1, h2, h3, rfl, rfl, hmin, rfl⟩
            · simp only [if_neg c1] at h
              by_cases c2 : (overrideVerdict st.override pn tn == some true) = true
              · simp only [if_pos c2] at h; simp at h
              · simp only [if_neg c2] at h
                by_cases c3 : (isValidOrderAllCapsOf cfg pn tn == some false) = true
                · simp only [if_pos c3] at h
                  simp at h
                  subst h
                  exact ⟨h1, h2, h3, rfl, rfl, hmin, rfl⟩
                · simp only [if_neg c3] at h
                  cases hpn : st.prevNode with
                  | none =>
                    rw [hpn] at h
                    by_cases c5 : (isValidOrderAllCapsOf cfg pn tn == some true ||
                        (none : Option Bool) == some true) = true
                    · simp only [if_pos c5] at h; simp at h
                    · simp only [if_neg (by simp : ¬((none : Option Bool) == some false) = true)] at h
                      simp only [if_neg c5] at h
                      by_cases c6 : (!isValidOrderAlpha cfg pn tn) = true
                      · simp only [if_pos c6] at h
                        simp at h
                        subst h
                        exact ⟨h1, h2, h3, rfl, rfl, hmin, rfl⟩
                      · simp only [if_neg c6] at h; simp at h
                  | some p0 =>
                    rw [hpn] at h
                    by_cases c4 : (isValidOrderShorthandOf cfg p0 p == some false) = true
                    · simp only [if_pos c4] at h
                      simp at h
                      subst h
                      exact ⟨h1, h2, h3, rfl, rfl, hmin, rfl⟩
                    · simp only [if_neg c4] at h
                      by_cases c5 : (isValidOrderAllCapsOf cfg pn tn == some true ||
                          isValidOrderShorthandOf cfg p0 p == some true) = true
                      · simp only [if_pos c5] at h; simp at h
                      · simp only [if_neg c5] at h
                        by_cases c6 : (!isValidOrderAlpha cfg pn tn) = true
                        · simp only [if_pos c6] at h
                          simp at h
                          subst h
                          exact ⟨h1, h2, h3, rfl, rfl, hmin, rfl⟩
                        · simp only [if_neg c6] at h; simp at h

set_option maxHeartbeats 1000000 in
/-- In a live frame, every `Property` visit records whether this entry's
name failed to extract. -/
theorem propertyStep_sets_skip (cfg : Config) (st : Stack) (p : PropNode)
    (h1 : p.inObjectPattern = false) (h2 : st.ignore = false)
    (h3 : overrideIgnores st.override = false) :
    (propertyStep cfg st p).1.prevNameSkipped = (getPropertyName p.key).isNone := by
  simp only [propertyStep, h1, h2, h3, Bool.or_self, Bool.false_or]
  rw [if_neg Bool.false_ne_true]
  split
  · rfl
  · cases hp : st.prevName <;> cases ht : getPropertyName p.key
    all_goals repeat' split
    all_goals rfl

/-- A suspended frame (inherited/single-line `ignore`, or an ignoring
override) never yields a report. -/
theorem runSteps_suspended_none (cfg : Config) :
    ∀ (es : List Entry) (st : Stack),
      st.ignore = true ∨ overrideIgnores st.override = true →
      ∀ x ∈ runSteps cfg st es, x = none := by
  intro es
  induction es with
  | nil => intro st _ x hx; cases hx
  | cons e es ih =>
    intro st h x hx
    have hpres := stepEntry_preserves cfg st e
    simp only [runSteps] at hx
    rcases List.mem_cons.1 hx with rfl | hx'
    · cases e with
      | spread => rfl
      | prop p =>
        show (propertyStep cfg st p).2 = none
        cases hres : (propertyStep cfg st p).2 with
        | none => rfl
        | some r =>
          have ha := propertyStep_report_anatomy hres
          rcases h with h | h
          · rw [ha.2.1] at h; cases h
          · rw [ha.2.2.1] at h; cases h
    · refine ih _ ?_ x hx'
      rcases h with h | h
      · exact Or.inl (by rw [hpres.2.1]; exact h)
      · exact Or.inr (by rw [hpres.2.2]; exact h)

/-- Where a report appears in a live frame's entry list, the entry directly
before it is a property, and the report carries a fix exactly when that
property's name was extractable. -/
theorem runSteps_report_fix (cfg : Config) :
    ∀ (es : List Entry) (st : Stack),
      (∀ p, Entry.prop p ∈ es → p.inObjectPattern = false) →
      st.ignore = false → overrideIgnores st.override = false →
      ∀ i r, (runSteps cfg st es)[i]? = some (some r) →
        (i = 0 ∧ st.prevName.isSome = true ∧ r.hasFix = !st.prevNameSkipped) ∨
        (∃ j p, i = j + 1 ∧ es[j]? = some (Entry.prop p) ∧
          r.hasFix = (getPropertyName p.key).isSome) := by
  intro es
  induction es with
  | nil => intro st _ _ _ i r hi; simp [runSteps] at hi
  | cons e es ih =>
    intro st hpat hig hov i r hi
    simp only [runSteps] at hi
    have hpres := stepEntry_preserves cfg st e
    cases i with
    | zero =>
      rw [List.getElem?_cons_zero] at hi
      have h2 : (stepEntry cfg st e).2 = some r := Option.some.inj hi
      cases e with
      | spread => exact absurd h2 (by simp [stepEntry, spreadStep])
      | prop p =>
        have ha := propertyStep_report_anatomy h2
        exact Or.inl ⟨rfl, ha.2.2.2.1, ha.2.2.2.2.2.2⟩
    | succ k =>
      rw [List.getElem?_cons_succ] at hi
      have IH := ih (stepEntry cfg st e).1
        (fun p hp => hpat p (List.mem_cons_of_mem _ hp))
        (by rw [hpres.2.1]; exact hig) (by rw [hpres.2.2]; exact hov) k r hi
      rcases IH with ⟨hk, hpsome, hfix⟩ | ⟨j, p, hkj, hj, hfix⟩
      · subst hk
        cases e with
        | spread => simp [stepEntry, spreadStep] at hpsome
        | prop p =>
          refine Or.inr ⟨0, p, rfl, by simp, ?_⟩
          have hskip := propertyStep_sets_skip cfg st p
            (hpat p (List.mem_cons_self _ _)) hig hov
          rw [show (stepEntry cfg st (Entry.prop p)).1 = (propertyStep cfg st p).1 from rfl]
            at hfix
          rw [hfix, hskip]
          cases getPropertyName p.key <;> rfl
      · exact Or.inr ⟨j + 1, p, by omega, by simpa using hj, hfix⟩

/-! ## Claim C6 — fixability of reported violations -/

/--
C6: a reported violation carries an edit-script (fix) exactly when the name
of the entry immediately preceding the offending entry was statically
extractable; a violation behind a dynamic-named predecessor is still
reported, only without a fix.
-/
theorem claim_C6 (cfg : Config) (ui : Bool) (parent : ParentCtx) (esqMatch : Nat → Bool)
    (sL eL : Nat) (entries : List Entry) (i : Nat) (r : Report)
    (hpat : ∀ p, Entry.prop p ∈ entries → p.inObjectPattern = false)
    (h : (runObject cfg ui parent esqMatch sL eL entries)[i]? = some (some r)) :
    ∃ j p, i = j + 1 ∧ entries[j]? = some (Entry.prop p) ∧
      r.hasFix = (getPropertyName p.key).isSome := by
  unfold runObject at h
  by_cases hig : (objectEnter cfg ui parent esqMatch sL eL entries).ignore = true
  · have hall := runSteps_suspended_none cfg entries _ (Or.inl hig)
    have := hall _ (List.getElem?_mem h)
    cases this
  · by_cases hov :
        overrideIgnores (objectEnter cfg ui parent esqMatch sL eL entries).override = true
    · have hall := runSteps_suspended_none cfg entries _ (Or.inr hov)
      have := hall _ (List.getElem?_mem h)
      cases this
    · have hmain := runSteps_report_fix cfg entries _ hpat
        (by simpa using hig) (by simpa using hov) i r h
      rcases hmain with ⟨_, hpsome, _⟩ | done
      · simp [objectEnter] at hpsome
      · exact done

/-- Witness for C6: a two-entry out-of-order object, whose report at index 1
carries a fix since the first entry's name is extractable. -/
theorem claim_C6_witness :
    ∃ j p, (1 : Nat) = j + 1 ∧
      ([.prop { key := .ident [98], shorthand := false, blankBefore := false,
                inObjectPattern := false },
        .prop { key := .ident [97], shorthand := false, blankBefore := false,
                inObjectPattern := false }] : List Entry)[j]? = some (Entry.prop p) ∧
      ({ messageId := .sortKeys, thisName := [97], prevName := [98],
         overrideMessage := none, hasFix := true } : Report).hasFix =
        (getPropertyName p.key).isSome :=
  claim_C6
    { order := .asc, insensitive := false, natural := false, minKeys := 2,
      allowLineSeparatedGroups := false, ignoreSingleLine := false,
      allCaps := .ignore, shorthand := .ignore, overrides := [] }
    false .other (fun _ => false) 0 2 _ 1 _
    (by intro p hp; simp at hp; rcases hp with rfl | rfl <;> rfl) (by decide)

/-! ## Claim C1 — the per-pair predicate priority chain -/

/--
C1 counterexample: with `allCaps: 'first'` and `shorthand: 'first'`, a pair
whose constant-grouping verdict is `true` (previous name `"A"` is
constant-style, current name `"b"` is not) still gets a shorthand-grouping
violation reported — a `true` from constant-grouping does not short-circuit
the pair, contrary to the claim.
-/
theorem claim_C1_counterexample :
    isValidOrderAllCapsOf
      { order := .asc, insensitive := false, natural := false, minKeys := 2,
        allowLineSeparatedGroups := false, ignoreSingleLine := false,
        allCaps := .first, shorthand := .first, overrides := [] } [65] [98] = some true ∧
    (propertyStep
      { order := .asc, insensitive := false, natural := false, minKeys := 2,
        allowLineSeparatedGroups := false, ignoreSingleLine := false,
        allCaps := .first, shorthand := .first, overrides := [] }
      { ignore := false,
        prevNode := some { key := .ident [65], shorthand := false, blankBefore := false,
                           inObjectPattern := false },
        prevBlankLine := false, prevName := some [65], prevNameSkipped := false,
        numKeys := 2, parentName := none, override := none }
      { key := .ident [98], shorthand := true, blankBefore := false,
        inObjectPattern := false }).2 =
      some { messageId := .sortKeysShorthand, thisName := [98], prevName := [65],
             overrideMessage := none, hasFix := true } := by
  exact ⟨rfl, rfl⟩

/-- In a live frame, a compared pair's report is computed by the explicit
priority chain `decisionChain`. -/
theorem propertyStep_compared (cfg : Config) (st : Stack) (node : PropNode) (pn tn : JStr) (pv : PropNode)
    (hpat : node.inObjectPattern = false) (hig : st.ignore = false)
    (hov : overrideIgnores st.override = false)
    (hprev : st.prevName = some pn) (hthis : getPropertyName node.key = some tn)
    (hpn : st.prevNode = some pv)
    (hblank : cfg.allowLineSeparatedGroups = false ∨
      (st.prevBlankLine = false ∧ node.blankBefore = false))
    (hmin : cfg.minKeys ≤ st.numKeys) :
    (propertyStep cfg st node).2 =
      decisionChain cfg st.override pv node pn tn (!st.prevNameSkipped) := by
  simp only [propertyStep, hpat, hig, hov, Bool.or_self, Bool.false_or, hprev, hthis, hpn]
  rw [if_neg Bool.false_ne_true]
  have hbl : (cfg.allowLineSeparatedGroups &&
      (st.prevBlankLine ||
        (cfg.allowLineSeparatedGroups && node.blankBefore))) = false := by
    rcases hblank with h | ⟨h1, h2⟩
    · rw [h]; rfl
    · rw [h1, h2]; simp
  simp only [hbl]
  rw [if_neg Bool.false_ne_true]
  simp only [if_neg (Nat.not_lt.2 hmin)]
  unfold decisionChain
  cases hv : overrideVerdict st.override pn tn with
  | some b => cases b <;> simp
  | none =>
    cases hc : isValidOrderAllCapsOf cfg pn tn with
    | some bc =>
      cases bc
      · simp
      · cases hs : isValidOrderShorthandOf cfg pv node with
        | some bs => cases bs <;> simp
        | none => simp
    | none =>
      cases hs : isValidOrderShorthandOf cfg pv node with
      | some bs => cases bs <;> simp
      | none => cases ha : isValidOrderAlpha cfg pn tn <;> simp

/--
C1 (amended): for every compared adjacent pair in a live frame meeting the
threshold, the emitted report equals the explicit priority chain
`decisionChain`: override comparator first (`true` short-circuits, `false`
reports), then constant-grouping (`false` reports), then shorthand-grouping
(`false` reports even when constant-grouping returned `true`), and the base
comparator only when neither grouping produced a verdict; at most one
violation is emitted per pair.
-/
theorem claim_C1 (cfg : Config) (st : Stack) (node : PropNode) (pn tn : JStr) (pv : PropNode)
    (hpat : node.inObjectPattern = false) (hig : st.ignore = false)
    (hov : overrideIgnores st.override = false)
    (hprev : st.prevName = some pn) (hthis : getPropertyName node.key = some tn)
    (hpn : st.prevNode = some pv)
    (hblank : cfg.allowLineSeparatedGroups = false ∨
      (st.prevBlankLine = false ∧ node.blankBefore = false))
    (hmin : cfg.minKeys ≤ st.numKeys) :
    (propertyStep cfg st node).2 =
      decisionChain cfg st.override pv node pn tn (!st.prevNameSkipped) :=
  propertyStep_compared cfg st node pn tn pv hpat hig hov hprev hthis hpn hblank hmin

/-- Witness for C1 on a concrete compared pair. -/
theorem claim_C1_witness :
    (propertyStep
      { order := .asc, insensitive := false, natural := false, minKeys := 2,
        allowLineSeparatedGroups := false, ignoreSingleLine := false,
        allCaps := .ignore, shorthand := .ignore, overrides := [] }
      { ignore := false,
        prevNode := some { key := .ident [97], shorthand := false, blankBefore := false,
                           inObjectPattern := false },
        prevBlankLine := false, prevName := some [97], prevNameSkipped := false,
        numKeys := 2, parentName := none, override := none }
      { key := .ident [98], shorthand := false, blankBefore := false,
        inObjectPattern := false }).2 =
      decisionChain
        { order := .asc, insensitive := false, natural := false, minKeys := 2,
          allowLineSeparatedGroups := false, ignoreSingleLine := false,
          allCaps := .ignore, shorthand := .ignore, overrides := [] }
        none
        { key := .ident [97], shorthand := false, blankBefore := false,
          inObjectPattern := false }
        { key := .ident [98], shorthand := false, blankBefore := false,
          inObjectPattern := false }
        [97] [98] true :=
  claim_C1 _ _ _ _ _ _ rfl rfl rfl rfl rfl rfl (Or.inl rfl) (by decide)

/-! ## Claim C5 scaffolding: the map folds -/

theorem omapGet_cons (p : JStr × Override) (ps : OMap) (k : JStr) :
    omapGet (p :: ps) k = if p.1 = k then some p.2 else omapGet ps k := by
  by_cases h : p.1 = k
  · rw [if_pos h]
    unfold omapGet
    rw [List.find?_cons_of_pos _ (by simpa using h)]
    rfl
  · rw [if_neg h]
    unfold omapGet
    rw [List.find?_cons_of_neg _ (by simpa using h)]

theorem omapGet_omapSet (m : OMap) (k : JStr) (v : Override) (k' : JStr) :
    omapGet (omapSet m k v) k' = if k' = k then some v else omapGet m k' := by
  induction m with
  | nil =>
    have hset : omapSet [] k v = [(k, v)] := rfl
    rw [hset, omapGet_cons]
    by_cases h : k' = k
    · rw [if_pos h.symm, if_pos h]
    · rw [if_neg (fun hh => h hh.symm), if_neg h]
  | cons p ps ih =>
    by_cases hp : p.1 = k
    · have hset : omapSet (p :: ps) k v = (k, v) :: ps := by
        show (if p.1 == k then (k, v) :: ps else p :: omapSet ps k v) = _
        rw [if_pos (beq_iff_eq.2 hp)]
      rw [hset, omapGet_cons, omapGet_cons]
      by_cases h : k' = k
      · rw [if_pos h.symm, if_pos h]
      · rw [if_neg (fun hh => h hh.symm), if_neg h, if_neg (fun hh => h (hh.symm.trans hp))]
    · have hset : omapSet (p :: ps) k v = p :: omapSet ps k v := by
        show (if p.1 == k then (k, v) :: ps else p :: omapSet ps k v) = _
        rw [if_neg (by simpa using hp)]
      rw [hset, omapGet_cons, omapGet_cons, ih]
      by_cases hq : p.1 = k'
      · have hkk : ¬k' = k := fun hh => hp (hq.trans hh)
        rw [if_pos hq, if_neg hkk, if_pos hq]
      · by_cases hkk : k' = k
        · rw [if_neg hq, if_pos hkk, if_pos hkk]
        · rw [if_neg hq, if_neg hkk, if_neg hkk, if_neg hq]

theorem betterUpd_idem (acc : Option Override) (o : Override) :
    betterUpd (betterUpd acc o) o = betterUpd acc o := by
  cases acc with
  | none => simp [betterUpd]
  | some e =>
    by_cases h : o.order.length < e.order.length
    · simp [betterUpd, h]
    · simp [betterUpd, h]

theorem omapGet_registerCombo (o : Override) (m : OMap) (combo : List JStr) (k : JStr) :
    omapGet (registerCombo o m combo) k =
      if k = joinComma combo then betterUpd (omapGet m k) o else omapGet m k := by
  simp only [registerCombo]
  cases hg : omapGet m (joinComma combo) with
  | none =>
    simp only [hg]
    rw [omapGet_omapSet]
    by_cases hk : k = joinComma combo
    · rw [if_pos hk, if_pos hk, hk, hg]
      rfl
    · rw [if_neg hk, if_neg hk]
  | some e =>
    simp only [hg]
    by_cases hlt : o.order.length < e.order.length
    · rw [if_pos hlt, omapGet_omapSet]
      by_cases hk : k = joinComma combo
      · rw [if_pos hk, if_pos hk, hk, hg]
        simp [betterUpd, hlt]
      · rw [if_neg hk, if_neg hk]
    · rw [if_neg hlt]
      by_cases hk : k = joinComma combo
      · rw [if_pos hk, hk, hg]
        simp [betterUpd, hlt]
      · rw [if_neg hk]

theorem foldl_registerCombo_get (o : Override) :
    ∀ (combos : List (List JStr)) (m : OMap) (k : JStr),
      omapGet (combos.foldl (registerCombo o) m) k =
        if k ∈ combos.map joinComma then betterUpd (omapGet m k) o
        else omapGet m k := by
  intro combos
  induction combos with
  | nil => intro m k; simp
  | cons c cs ih =>
    intro m k
    rw [List.foldl_cons, ih, omapGet_registerCombo]
    by_cases hk : k = joinComma c
    · subst hk
      by_cases hm : joinComma c ∈ cs.map joinComma
      · rw [if_pos hm, if_pos rfl, betterUpd_idem,
          if_pos (by rw [List.map_cons]; exact List.mem_cons_self _ _)]
      · rw [if_neg hm, if_pos rfl,
          if_pos (by rw [List.map_cons]; exact List.mem_cons_self _ _)]
    · by_cases hm : k ∈ cs.map joinComma
      · rw [if_pos hm, if_neg hk,
          if_pos (by rw [List.map_cons]; exact List.mem_cons_of_mem _ hm)]
      · rw [if_neg hm, if_neg hk,
          if_neg (by rw [List.map_cons]; exact fun hmem =>
            (List.mem_cons.1 hmem).elim hk hm)]

/-- The `otherOverrides` lookup equals the direct fold over the overrides. -/
theorem otherOverridesBuild_get (overrides : List Override) (minKeys : Nat) (k : JStr) :
    omapGet (otherOverridesBuild overrides minKeys) k = pickBest minKeys k overrides := by
  suffices h : ∀ (m : OMap),
      omapGet
        (overrides.foldl
          (fun m override =>
            if override.esquery.isSome || override.properties.isSome then m
            else
              (combination (jsSortStrings override.order) minKeys).foldl
                (registerCombo override) m)
          m) k =
      (overrides.foldl
        (fun acc o =>
          if o.esquery.isSome || o.properties.isSome then acc
          else if k ∈ (combination (jsSortStrings o.order) minKeys).map joinComma then
            betterUpd acc o
          else acc)
        (omapGet m k)) by
    exact h []
  induction overrides with
  | nil => intro m; rfl
  | cons o os ih =>
    intro m
    rw [List.foldl_cons, List.foldl_cons]
    by_cases he : o.esquery.isSome || o.properties.isSome
    · rw [if_pos he, if_pos he]
      exact ih _
    · rw [if_neg he, if_neg he]
      rw [ih, foldl_registerCombo_get]


/-! ## Claim C5 scaffolding: combinations, joins and sorting -/

theorem comboFold_mem {α : Type} (l : List α) :
    ∀ (out : List (List α)) (c : List α),
      (c ∈ l.foldl (fun out item => out ++ [[item]] ++ out.map (fun d => d ++ [item])) out ↔
        c ∈ out ∨ ∃ a b, (a ∈ out ∨ a = []) ∧ b ≠ [] ∧ List.Sublist b l ∧ c = a ++ b) := by
  induction l with
  | nil =>
    intro out c
    rw [List.foldl_nil]
    constructor
    · exact Or.inl
    · rintro (h | ⟨a, b, ha, hb, hsub, rfl⟩)
      · exact h
      · rw [List.sublist_nil] at hsub
        exact absurd hsub hb
  | cons x l ih =>
    intro out c
    rw [List.foldl_cons, ih]
    have hstep : ∀ d : List α,
        (d ∈ out ++ [[x]] ++ out.map (fun e => e ++ [x]) ↔
          d ∈ out ∨ d = [x] ∨ ∃ e ∈ out, d = e ++ [x]) := by
      intro d
      simp [List.mem_append, List.mem_map]
      tauto
    constructor
    · rintro (hc | ⟨a, b, ha, hb, hsub, rfl⟩)
      · rcases (hstep c).1 hc with h | h | ⟨d, hd, rfl⟩
        · exact Or.inl h
        · subst h
          exact Or.inr ⟨[], [x], Or.inr rfl, by simp,
            List.cons_sublist_cons.2 (List.nil_sublist l), by simp⟩
        · exact Or.inr ⟨d, [x], Or.inl hd, by simp,
            List.cons_sublist_cons.2 (List.nil_sublist l), rfl⟩
      · rcases ha with ha | rfl
        · rcases (hstep a).1 ha with h | h | ⟨d, hd, rfl⟩
          · exact Or.inr ⟨a, b, Or.inl h, hb, List.sublist_cons_of_sublist x hsub, rfl⟩
          · subst h
            exact Or.inr ⟨[], x :: b, Or.inr rfl, by simp,
              List.cons_sublist_cons.2 hsub, rfl⟩
          · exact Or.inr ⟨d, x :: b, Or.inl hd, by simp,
              List.cons_sublist_cons.2 hsub, by simp⟩
        · exact Or.inr ⟨[], b, Or.inr rfl, hb, List.sublist_cons_of_sublist x hsub, rfl⟩
    · rintro (hc | ⟨a, b, ha, hb, hsub, rfl⟩)
      · exact Or.inl ((hstep c).2 (Or.inl hc))
      · rcases List.sublist_cons_iff.1 hsub with hsubl | ⟨b', rfl, hsubl⟩
        · refine Or.inr ⟨a, b, ?_, hb, hsubl, rfl⟩
          rcases ha with ha | rfl
          · exact Or.inl ((hstep a).2 (Or.inl ha))
          · exact Or.inr rfl
        · by_cases hb'nil : b' = []
          · subst hb'nil
            refine Or.inl ((hstep (a ++ [x])).2 ?_)
            rcases ha with ha | rfl
            · exact Or.inr (Or.inr ⟨a, ha, rfl⟩)
            · exact Or.inr (Or.inl (by simp))
          · refine Or.inr ⟨a ++ [x], b', ?_, hb'nil, hsubl, by simp⟩
            rcases ha with ha | rfl
            · exact Or.inl ((hstep (a ++ [x])).2 (Or.inr (Or.inr ⟨a, ha, rfl⟩)))
            · exact Or.inl ((hstep ([] ++ [x])).2 (Or.inr (Or.inl (by simp))))

theorem combination_mem {α : Type} (arr : List α) (minLength : Nat) (c : List α) :
    c ∈ combination arr minLength ↔
      c ≠ [] ∧ List.Sublist c arr ∧ minLength ≤ c.length := by
  unfold combination
  rw [List.mem_filter, comboFold_mem]
  simp only [List.not_mem_nil, false_or, decide_eq_true_eq]
  constructor
  · rintro ⟨⟨a, b, rfl, hb, hsub, hc⟩, hlen⟩
    rw [List.nil_append] at hc
    subst hc
    exact ⟨hb, hsub, hlen⟩
  · rintro ⟨hne, hsub, hlen⟩
    refine ⟨⟨[], c, rfl, hne, hsub, ?_⟩, hlen⟩
    rw [List.nil_append]

theorem append_comma_inj :
    ∀ (a1 : List Nat), (44 : Nat) ∉ a1 → ∀ (a2 : List Nat), (44 : Nat) ∉ a2 →
      ∀ r1 r2 : List Nat, a1 ++ 44 :: r1 = a2 ++ 44 :: r2 → a1 = a2 ∧ r1 = r2 := by
  intro a1
  induction a1 with
  | nil =>
    intro _ a2 h2 r1 r2 he
    cases a2 with
    | nil => simpa using he
    | cons x a2' =>
      rw [List.nil_append, List.cons_append, List.cons.injEq] at he
      exact absurd (he.1 ▸ List.mem_cons_self x a2') h2
  | cons y a1' ih =>
    intro h1 a2 h2 r1 r2 he
    cases a2 with
    | nil =>
      rw [List.nil_append, List.cons_append, List.cons.injEq] at he
      exact absurd (he.1 ▸ List.mem_cons_self y a1') h1
    | cons x a2' =>
      rw [List.cons_append, List.cons_append, List.cons.injEq] at he
      obtain ⟨rfl, he'⟩ := he
      have h1' : (44 : Nat) ∉ a1' := fun hm => h1 (List.mem_cons_of_mem _ hm)
      have h2' : (44 : Nat) ∉ a2' := fun hm => h2 (List.mem_cons_of_mem _ hm)
      obtain ⟨ha, hr⟩ := ih h1' a2' h2' r1 r2 he'
      exact ⟨by rw [ha], hr⟩

theorem joinComma_ne_nil (x : JStr) (l : List JStr) (hx : x ≠ []) :
    joinComma (x :: l) ≠ [] := by
  cases l with
  | nil => simpa [joinComma] using hx
  | cons y l' => simp [joinComma]

theorem joinComma_inj :
    ∀ (l1 : List JStr), (∀ s ∈ l1, s ≠ [] ∧ (44 : Nat) ∉ s) →
      ∀ (l2 : List JStr), (∀ s ∈ l2, s ≠ [] ∧ (44 : Nat) ∉ s) →
      joinComma l1 = joinComma l2 → l1 = l2 := by
  intro l1
  induction l1 with
  | nil =>
    intro _ l2 h2 he
    cases l2 with
    | nil => rfl
    | cons x l2' =>
      exact absurd he.symm (joinComma_ne_nil x l2' (h2 x (List.mem_cons_self _ _)).1)
  | cons x l1' ih =>
    intro h1 l2 h2 he
    cases l2 with
    | nil => exact absurd he (joinComma_ne_nil x l1' (h1 x (List.mem_cons_self _ _)).1)
    | cons y l2' =>
      cases l1' with
      | nil =>
        cases l2' with
        | nil =>
          simp only [joinComma] at he
          rw [he]
        | cons z l2'' =>
          simp only [joinComma] at he
          have hmem : (44 : Nat) ∈ x := by
            rw [he]
            exact List.mem_append_right _ (List.mem_cons_self _ _)
          exact absurd hmem (h1 x (List.mem_cons_self _ _)).2
      | cons z l1'' =>
        cases l2' with
        | nil =>
          simp only [joinComma] at he
          have hmem : (44 : Nat) ∈ y := by
            rw [← he]
            exact List.mem_append_right _ (List.mem_cons_self _ _)
          exact absurd hmem (h2 y (List.mem_cons_self _ _)).2
        | cons w l2'' =>
          simp only [joinComma] at he
          obtain ⟨hxy, hj⟩ := append_comma_inj x (h1 x (List.mem_cons_self _ _)).2 y
            (h2 y (List.mem_cons_self _ _)).2 _ _ he
          have hrest := ih (fun s hs => h1 s (List.mem_cons_of_mem _ hs)) (w :: l2'')
            (fun s hs => h2 s (List.mem_cons_of_mem _ hs)) hj
          rw [hxy, hrest]

theorem mem_insertSorted (a x : JStr) (l : List JStr) :
    x ∈ insertSorted a l ↔ x = a ∨ x ∈ l := by
  induction l with
  | nil => simp [insertSorted]
  | cons b bs ih =>
    unfold insertSorted
    by_cases h : jsStrLe a b = true
    · rw [if_pos h]
      simp [List.mem_cons]
    · rw [if_neg h]
      simp only [List.mem_cons, ih]
      tauto

theorem mem_jsSortStrings (x : JStr) (l : List JStr) :
    x ∈ jsSortStrings l ↔ x ∈ l := by
  induction l with
  | nil => simp [jsSortStrings]
  | cons a as ih =>
    unfold jsSortStrings
    rw [mem_insertSorted, ih, List.mem_cons]

theorem length_insertSorted (a : JStr) (l : List JStr) :
    (insertSorted a l).length = l.length + 1 := by
  induction l with
  | nil => rfl
  | cons b bs ih =>
    unfold insertSorted
    by_cases h : jsStrLe a b = true
    · rw [if_pos h]
      rfl
    · rw [if_neg h]
      simp [ih]

theorem length_jsSortStrings (l : List JStr) :
    (jsSortStrings l).length = l.length := by
  induction l with
  | nil => rfl
  | cons a as ih =>
    unfold jsSortStrings
    rw [length_insertSorted, ih, List.length_cons]


/-- For comma-free non-empty names, a key built from the node's sorted name
list hits an override's combination keys exactly when the sorted name list is
a subsequence of the override's sorted order and meets the threshold. -/
theorem key_mem_iff (names : List JStr) (o : Override) (minKeys : Nat)
    (hmk : 1 ≤ minKeys)
    (hnames : ∀ s ∈ names, s ≠ [] ∧ (44 : Nat) ∉ s)
    (hord : ∀ s ∈ o.order, s ≠ [] ∧ (44 : Nat) ∉ s) :
    (joinComma (jsSortStrings names) ∈
        (combination (jsSortStrings o.order) minKeys).map joinComma) ↔
      (List.Sublist (jsSortStrings names) (jsSortStrings o.order) ∧
        minKeys ≤ names.length) := by
  constructor
  · intro hmem
    rcases List.mem_map.1 hmem with ⟨combo, hcombo, hjoin⟩
    rw [combination_mem] at hcombo
    obtain ⟨hne, hsub, hlen⟩ := hcombo
    have hcomboGood : ∀ s ∈ combo, s ≠ [] ∧ (44 : Nat) ∉ s := fun s hs =>
      hord s ((mem_jsSortStrings s o.order).1 (hsub.mem hs))
    have hnamesGood : ∀ s ∈ jsSortStrings names, s ≠ [] ∧ (44 : Nat) ∉ s := fun s hs =>
      hnames s ((mem_jsSortStrings s names).1 hs)
    have hcn := joinComma_inj combo hcomboGood (jsSortStrings names) hnamesGood hjoin
    rw [hcn] at hsub hlen
    rw [length_jsSortStrings] at hlen
    exact ⟨hsub, hlen⟩
  · rintro ⟨hsub, hlen⟩
    refine List.mem_map.2 ⟨jsSortStrings names, ?_, rfl⟩
    rw [combination_mem]
    have hlen' : minKeys ≤ (jsSortStrings names).length := by
      rwa [length_jsSortStrings]
    have hne : jsSortStrings names ≠ [] := by
      intro h0
      rw [h0] at hlen'
      simp at hlen'
      omega
    exact ⟨hne, hsub, hlen'⟩

/-- For comma-free non-empty names and orders, the `otherOverrides` lookup
coincides with the spec's direct subset selection. -/
theorem otherLookup_eq_specSelect (overrides : List Override) (minKeys : Nat)
    (names : List JStr) (hmk : 1 ≤ minKeys)
    (hnames : ∀ s ∈ names, s ≠ [] ∧ (44 : Nat) ∉ s)
    (hords : ∀ o ∈ overrides, ∀ s ∈ o.order, s ≠ [] ∧ (44 : Nat) ∉ s) :
    omapGet (otherOverridesBuild overrides minKeys) (joinComma (jsSortStrings names)) =
      specSelectOther overrides minKeys names := by
  rw [otherOverridesBuild_get]
  unfold pickBest specSelectOther
  refine List.foldl_ext _ _ none (fun acc o ho => ?_)
  by_cases he : o.esquery.isSome || o.properties.isSome
  · rw [if_pos he]
    have he' : (o.esquery.isNone && o.properties.isNone) = false := by
      rcases Bool.or_eq_true_iff.1 he with h | h
      · simp [Option.isNone_iff_eq_none, Option.isSome_iff_exists.1 h]
        rcases Option.isSome_iff_exists.1 h with ⟨v, hv⟩
        simp [hv]
      · rcases Option.isSome_iff_exists.1 h with ⟨v, hv⟩
        simp [hv]
    rw [he', Bool.false_and]
    rw [if_neg Bool.false_ne_true]
  · rw [if_neg he]
    have he1 : o.esquery.isNone = true := by
      rcases h : o.esquery with _ | v
      · rfl
      · exfalso; exact he (by simp [h])
    have he2 : o.properties.isNone = true := by
      rcases h : o.properties with _ | v
      · rfl
      · exfalso; exact he (by simp [h])
    rw [he1, he2]
    by_cases hmem : joinComma (jsSortStrings names) ∈
        (combination (jsSortStrings o.order) minKeys).map joinComma
    · rw [if_pos hmem]
      have := (key_mem_iff names o minKeys hmk hnames (hords o ho)).1 hmem
      rw [if_pos (by simp [this.1, this.2])]
    · rw [if_neg hmem]
      have : ¬(List.Sublist (jsSortStrings names) (jsSortStrings o.order) ∧
          minKeys ≤ names.length) := fun hx =>
        hmem ((key_mem_iff names o minKeys hmk hnames (hords o ho)).2 hx)
      rw [if_neg (by
        intro hx
        simp only [Bool.and_eq_true, decide_eq_true_eq] at hx
        exact this ⟨hx.2.1, hx.2.2⟩)]

/-! ## Claim C5 — the resolution theorems -/

/--
C5 counterexample: the key-subset stage matches by the comma-joined text of
the sorted key list, so with an override whose declared order is
`["a,b", "c"]` an object with keys `{a, b, c}` resolves that override even
though its key set is not a subset of the declared order (`"a"` is not a
declared key).
-/
theorem claim_C5_counterexample :
    (resolveOverride
      { order := .asc, insensitive := false, natural := false, minKeys := 2,
        allowLineSeparatedGroups := false, ignoreSingleLine := false,
        allCaps := .ignore, shorthand := .ignore,
        overrides := [{ message := none, order := [[97, 44, 98], [99]],
                        properties := none, esquery := none, ignore := false }] }
      .other (fun _ => false) [[97], [98], [99]]).2 =
      some { message := none, order := [[97, 44, 98], [99]], properties := none,
             esquery := none, ignore := false } ∧
    ([97] : JStr) ∈ ([[97], [98], [99]] : List JStr) ∧
    ([97] : JStr) ∉ ([[97, 44, 98], [99]] : List JStr) := by
  refine ⟨?_, by decide, by decide⟩
  rfl

/--
C5 (amended): at most one governing override resolves per frame, chosen by
the precedence parent-key match, else first esquery match, else key-subset
match; and — provided every node key name and declared order entry is
non-empty and comma-free, and the minimum-keys threshold is positive — the
key-subset stage selects exactly as the spec says: the first override
declaring only an explicit order whose sorted order contains the node's
sorted named-key sequence as a subsequence of size at least `minKeys`,
preferring strictly shorter declared orders.  (Without the comma-free
proviso the comma-joined lookup key can conflate distinct key sets, as the
counterexample shows.)
-/
theorem claim_C5 (cfg : Config) (parent : ParentCtx) (esqMatch : Nat → Bool)
    (names : List JStr) (hmk : 1 ≤ cfg.minKeys)
    (hnames : ∀ s ∈ names, s ≠ [] ∧ (44 : Nat) ∉ s)
    (hords : ∀ o ∈ cfg.overrides, ∀ s ∈ o.order, s ≠ [] ∧ (44 : Nat) ∉ s) :
    (resolveOverride cfg parent esqMatch names).2 =
      specResolveOverride cfg parent esqMatch names := by
  unfold resolveOverride specResolveOverride
  cases h1 : resolveParentOverride cfg parent with
  | some o => simp [h1]
  | none =>
    cases h2 : resolveEsqueryOverride cfg esqMatch with
    | some o => simp [h1, h2]
    | none =>
      simp only [h1, h2]
      have hguard :
          (if (otherOverridesBuild cfg.overrides cfg.minKeys).length > 0 then
            omapGet (otherOverridesBuild cfg.overrides cfg.minKeys)
              (joinComma (jsSortStrings names))
          else none) =
          omapGet (otherOverridesBuild cfg.overrides cfg.minKeys)
            (joinComma (jsSortStrings names)) := by
        cases hm : otherOverridesBuild cfg.overrides cfg.minKeys with
        | nil => simp [omapGet]
        | cons p ps => simp
      rw [hguard, otherLookup_eq_specSelect cfg.overrides cfg.minKeys names hmk hnames hords]

/-- Witness for C5 at a concrete configuration (order `["a", "b"]`, object
keys `{b, a}`). -/
theorem claim_C5_witness :
    (resolveOverride
      { order := .asc, insensitive := false, natural := false, minKeys := 2,
        allowLineSeparatedGroups := false, ignoreSingleLine := false,
        allCaps := .ignore, shorthand := .ignore,
        overrides := [{ message := none, order := [[97], [98]],
                        properties := none, esquery := none, ignore := false }] }
      .other (fun _ => false) [[98], [97]]).2 =
      specResolveOverride
        { order := .asc, insensitive := false, natural := false, minKeys := 2,
          allowLineSeparatedGroups := false, ignoreSingleLine := false,
          allCaps := .ignore, shorthand := .ignore,
          overrides := [{ message := none, order := [[97], [98]],
                          properties := none, esquery := none, ignore := false }] }
        .other (fun _ => false) [[98], [97]] :=
  claim_C5 _ _ _ _ (by decide) (by decide) (by decide)

/-! ## Claim C8 scaffolding: swap lemmas -/

theorem customOrder_false_swap {ord : List JStr} {a b : JStr}
    (h : validCustomOrderComparator ord a b = some false) :
    validCustomOrderComparator ord b a = some true := by
  by_cases ha : a ∈ ord <;> by_cases hb : b ∈ ord
  · rw [(customOrder_spec ord a b).1 ha hb] at h
    have hgt : ¬(jsIndexOf a ord ≤ jsIndexOf b ord) := by
      simpa using h
    rw [(customOrder_spec ord b a).1 hb ha]
    have : jsIndexOf b ord ≤ jsIndexOf a ord := by omega
    simp [this]
  · rw [(customOrder_spec ord a b).2.1 ha hb] at h
    simp at h
  · exact (customOrder_spec ord b a).2.1 hb ha
  · rw [(customOrder_spec ord a b).2.2.2 ha hb] at h
    cases h

theorem customOrder_none_swap {ord : List JStr} {a b : JStr}
    (h : validCustomOrderComparator ord a b = none) :
    validCustomOrderComparator ord b a = none := by
  by_cases ha : a ∈ ord <;> by_cases hb : b ∈ ord
  · rw [(customOrder_spec ord a b).1 ha hb] at h
    cases h
  · rw [(customOrder_spec ord a b).2.1 ha hb] at h
    cases h
  · rw [(customOrder_spec ord a b).2.2.1 ha hb] at h
    cases h
  · exact (customOrder_spec ord b a).2.2.2 hb ha

theorem overrideVerdict_false_swap {ov : Option Override} {a b : JStr}
    (h : overrideVerdict ov a b = some false) : overrideVerdict ov b a = some true := by
  cases ov with
  | none => cases h
  | some o => exact customOrder_false_swap h

theorem overrideVerdict_none_swap {ov : Option Override} {a b : JStr}
    (h : overrideVerdict ov a b = none) : overrideVerdict ov b a = none := by
  cases ov with
  | none => rfl
  | some o => exact customOrder_none_swap h

theorem allCapsTest_false_swap {a b : JStr} (h : isValidAllCapsTest a b = some false) :
    isValidAllCapsTest b a = some true := by
  unfold isValidAllCapsTest at h ⊢
  cases hca : (a == jsToUpperCase a) <;> cases hcb : (b == jsToUpperCase b) <;>
    simp_all

theorem allCapsTest_none_swap {a b : JStr} (h : isValidAllCapsTest a b = none) :
    isValidAllCapsTest b a = none := by
  unfold isValidAllCapsTest at h ⊢
  cases hca : (a == jsToUpperCase a) <;> cases hcb : (b == jsToUpperCase b) <;>
    simp_all

theorem allCapsOf_false_swap {cfg : Config} {a b : JStr}
    (h : isValidOrderAllCapsOf cfg a b = some false) :
    isValidOrderAllCapsOf cfg b a = some true := by
  unfold isValidOrderAllCapsOf firstLastTest at h ⊢
  cases hfl : cfg.allCaps <;> rw [hfl] at h
  · exact allCapsTest_false_swap h
  · exact allCapsTest_false_swap h
  · exact Option.noConfusion h

theorem allCapsOf_none_swap {cfg : Config} {a b : JStr}
    (h : isValidOrderAllCapsOf cfg a b = none) :
    isValidOrderAllCapsOf cfg b a = none := by
  unfold isValidOrderAllCapsOf firstLastTest at h ⊢
  cases hfl : cfg.allCaps <;> rw [hfl] at h
  · exact allCapsTest_none_swap h
  · exact allCapsTest_none_swap h
  · rfl

theorem shorthandTest_false_swap {a b : PropNode} (h : isValidShorthandTest a b = some false) :
    isValidShorthandTest b a = some true := by
  unfold isValidShorthandTest at h ⊢
  cases hca : a.shorthand <;> cases hcb : b.shorthand <;> simp_all

theorem shorthandTest_none_swap {a b : PropNode} (h : isValidShorthandTest a b = none) :
    isValidShorthandTest b a = none := by
  unfold isValidShorthandTest at h ⊢
  cases hca : a.shorthand <;> cases hcb : b.shorthand <;> simp_all

theorem shorthandOf_false_swap {cfg : Config} {a b : PropNode}
    (h : isValidOrderShorthandOf cfg a b = some false) :
    isValidOrderShorthandOf cfg b a = some true := by
  unfold isValidOrderShorthandOf firstLastTest at h ⊢
  cases hfl : cfg.shorthand <;> rw [hfl] at h
  · exact shorthandTest_false_swap h
  · exact shorthandTest_false_swap h
  · exact Option.noConfusion h

theorem shorthandOf_none_swap {cfg : Config} {a b : PropNode}
    (h : isValidOrderShorthandOf cfg a b = none) :
    isValidOrderShorthandOf cfg b a = none := by
  unfold isValidOrderShorthandOf firstLastTest at h ⊢
  cases hfl : cfg.shorthand <;> rw [hfl] at h
  · exact shorthandTest_none_swap h
  · exact shorthandTest_none_swap h
  · rfl

theorem jsStrLe_false_swap {a b : JStr} (h : jsStrLe a b = false) : jsStrLe b a = true := by
  unfold jsStrLe at h ⊢
  cases hc : jsStrCmp a b
  · rw [hc] at h
    cases h
  · rw [hc] at h
    cases h
  · have hl : jsStrCmp b a = .lt := by
      rw [← jsStrCmp_swap, hc]
      rfl
    rw [hl]
    rfl

theorem natLe_false_swap {a b : JStr} (h : (naturalCompare a b != Ordering.gt) = false) :
    (naturalCompare b a != Ordering.gt) = true := by
  cases hc : naturalCompare a b
  · rw [hc] at h
    cases h
  · rw [hc] at h
    cases h
  · have hl : naturalCompare b a = .lt := by
      rw [← naturalCompare_swap, hc]
      rfl
    rw [hl]
    rfl

theorem alpha_false_swap {cfg : Config} {a b : JStr} (h : isValidOrderAlpha cfg a b = false) :
    isValidOrderAlpha cfg b a = true := by
  unfold isValidOrderAlpha at h ⊢
  cases ho : cfg.order <;> cases hI : cfg.insensitive <;> cases hN : cfg.natural <;>
    rw [ho, hI, hN] at h <;>
    first
    | exact jsStrLe_false_swap h
    | exact natLe_false_swap h

theorem jsStrLe_total (a b : JStr) (h : jsStrLe a b = true) (h' : jsStrLe b a = true) :
    a = b := by
  unfold jsStrLe at h h'
  cases hc : jsStrCmp a b
  · have : jsStrCmp b a = .gt := by
      rw [← jsStrCmp_swap, hc]
      rfl
    rw [this] at h'
    cases h'
  · exact (jsStrCmp_eq_iff a b).1 hc
  · rw [hc] at h
    cases h

theorem jsSort_pair_comm (a b : JStr) : jsSortStrings [a, b] = jsSortStrings [b, a] := by
  show insertSorted a (insertSorted b []) = insertSorted b (insertSorted a [])
  show insertSorted a [b] = insertSorted b [a]
  unfold insertSorted
  by_cases hab : jsStrLe a b = true <;> by_cases hba : jsStrLe b a = true
  · rw [if_pos hab, if_pos hba, jsStrLe_total a b hab hba]
  · rw [if_pos hab, if_neg hba]
    rfl
  · rw [if_neg hab, if_pos hba]
    rfl
  · exact absurd (jsStrLe_false_swap (Bool.not_eq_true _ ▸ Bool.eq_false_iff.2 hab)) hba


/-- A chain report names the compared pair. -/
theorem decisionChain_names {cfg : Config} {ov : Option Override} {p1 p2 : PropNode}
    {pn tn : JStr} {f : Bool} {r : Report}
    (h : decisionChain cfg ov p1 p2 pn tn f = some r) :
    r.prevName = pn ∧ r.thisName = tn := by
  unfold decisionChain at h
  split at h
  · obtain rfl := Option.some.inj h
    exact ⟨rfl, rfl⟩
  · cases h
  · split at h
    · obtain rfl := Option.some.inj h
      exact ⟨rfl, rfl⟩
    · obtain rfl := Option.some.inj h
      exact ⟨rfl, rfl⟩
    · split at h
      · cases h
      · obtain rfl := Option.some.inj h
        exact ⟨rfl, rfl⟩
    · cases h

/-- Swapping the pair of a reported violation yields a compliant pair,
except in the grouping cross-over cases excluded by the side condition. -/
theorem decisionChain_swap (cfg : Config) (ov : Option Override) (p1 p2 : PropNode)
    (pn tn : JStr) (f1 f2 : Bool) (r : Report)
    (h : decisionChain cfg ov p1 p2 pn tn f1 = some r)
    (hcond : r.messageId = .sortKeysOverride ∨ r.messageId = .sortKeys ∨
      (r.messageId = .sortKeysAllCaps ∧ isValidOrderShorthandOf cfg p2 p1 ≠ some false) ∨
      (r.messageId = .sortKeysShorthand ∧ isValidOrderAllCapsOf cfg pn tn = none)) :
    decisionChain cfg ov p2 p1 tn pn f2 = none := by
  unfold decisionChain at h ⊢
  cases hv : overrideVerdict ov pn tn with
  | some b =>
    rw [hv] at h
    cases b with
    | false => simp [overrideVerdict_false_swap hv]
    | true => simp at h
  | none =>
    rw [hv] at h
    rw [overrideVerdict_none_swap hv]
    cases hc : isValidOrderAllCapsOf cfg pn tn with
    | some bc =>
      rw [hc] at h
      cases bc with
      | false =>
        have hr : createReport .sortKeysAllCaps tn pn none f1 = r := by
          simpa using h
        subst hr
        rcases hcond with hm | hm | ⟨hm, hsh⟩ | ⟨hm, hac⟩
        · exact absurd hm (by simp [createReport])
        · exact absurd hm (by simp [createReport])
        · cases hs2 : isValidOrderShorthandOf cfg p2 p1 with
          | some bs2 =>
            cases bs2 with
            | false => exact absurd hs2 hsh
            | true => simp [allCapsOf_false_swap hc, hs2]
          | none => simp [allCapsOf_false_swap hc, hs2]
        · exact absurd hac (by rw [hc]; simp)
      | true =>
        cases hs : isValidOrderShorthandOf cfg p1 p2 with
        | some bs =>
          rw [hs] at h
          cases bs with
          | false =>
            have hr : createReport .sortKeysShorthand tn pn none f1 = r := by
              simpa using h
            subst hr
            rcases hcond with hm | hm | ⟨hm, hsh⟩ | ⟨hm, hac⟩
            · exact absurd hm (by simp [createReport])
            · exact absurd hm (by simp [createReport])
            · exact absurd hm (by simp [createReport])
            · exact absurd hac (by rw [hc]; simp)
          | true => simp at h
        | none =>
          rw [hs] at h
          simp at h
    | none =>
      rw [hc] at h
      cases hs : isValidOrderShorthandOf cfg p1 p2 with
      | some bs =>
        rw [hs] at h
        cases bs with
        | false => simp [allCapsOf_none_swap hc, shorthandOf_false_swap hs]
        | true => simp at h
      | none =>
        rw [hs] at h
        cases hal : isValidOrderAlpha cfg pn tn with
        | true => simp [hal] at h
        | false =>
          simp [allCapsOf_none_swap hc, shorthandOf_none_swap hs, alpha_false_swap hal]


/-- The first property of a fresh frame is recorded without a report. -/
theorem propertyStep_first (cfg : Config) (st : Stack) (p : PropNode)
    (hpat : p.inObjectPattern = false) (hig : st.ignore = false)
    (hov : overrideIgnores st.override = false)
    (hpn : st.prevNode = none) (hpb : st.prevBlankLine = false)
    (hpname : st.prevName = none) :
    propertyStep cfg st p =
      ({ st with
          prevNode := some p
          prevNameSkipped := (getPropertyName p.key).isNone
          prevName := getPropertyName p.key }, none) := by
  simp only [propertyStep, hpat, hig, hov, Bool.or_self, Bool.false_or, hpn, hpb]
  rw [if_neg Bool.false_ne_true]
  simp only [Bool.false_or, Bool.and_false]
  rw [if_neg Bool.false_ne_true]
  rw [hpname]
  cases ht : getPropertyName p.key with
  | none => rfl
  | some tn => rfl

/-- With blank-line grouping on and a blank gap before this entry, the
`Property` visitor starts a new group and reports nothing. -/
theorem propertyStep_blank_none (cfg : Config) (st : Stack) (p q : PropNode)
    (hpn : st.prevNode = some q) (hA : cfg.allowLineSeparatedGroups = true)
    (hbb : p.blankBefore = true) :
    (propertyStep cfg st p).2 = none := by
  simp only [propertyStep, hpn, hA, hbb]
  split
  · rfl
  · rw [if_pos (by simp)]

/-- The scope resolver treats a two-entry object the same after the entries
swap. -/
theorem resolveOverride_swap_names (cfg : Config) (parent : ParentCtx)
    (esqMatch : Nat → Bool) (a b : JStr) :
    (resolveOverride cfg parent esqMatch [a, b]).2 =
      (resolveOverride cfg parent esqMatch [b, a]).2 := by
  unfold resolveOverride
  rw [jsSort_pair_comm]

/-- Entering a two-entry object after swapping its entries produces the same
frame. -/
theorem objectEnter_swap (cfg : Config) (ui : Bool) (parent : ParentCtx)
    (esqMatch : Nat → Bool) (sL eL : Nat) (p1 p2 : PropNode) (pn tn : JStr)
    (h1 : getPropertyName p1.key = some pn) (h2 : getPropertyName p2.key = some tn) :
    objectEnter cfg ui parent esqMatch sL eL [Entry.prop p2, Entry.prop p1] =
      objectEnter cfg ui parent esqMatch sL eL [Entry.prop p1, Entry.prop p2] := by
  have e1 : entryNames [Entry.prop p1, Entry.prop p2] = [pn, tn] := by
    simp [entryNames, h1, h2]
  have e2 : entryNames [Entry.prop p2, Entry.prop p1] = [tn, pn] := by
    simp [entryNames, h1, h2]
  simp only [objectEnter]
  rw [e1, e2]
  rw [resolveOverride_swap_names cfg parent esqMatch tn pn]
  rfl

/-! ## Claim C8 — fix idempotence for a two-entry violation -/

/--
C8 counterexample: with `allCaps: 'first'` and `shorthand: 'first'`, the
two-entry object `{ b (shorthand), A }` is reported as a constant-grouping
violation; applying the swap fix and re-running reports a shorthand-grouping
violation for the same pair — the fix is not idempotent as claimed.
-/
theorem claim_C8_counterexample :
    runObject
      { order := .asc, insensitive := false, natural := false, minKeys := 2,
        allowLineSeparatedGroups := false, ignoreSingleLine := false,
        allCaps := .first, shorthand := .first, overrides := [] }
      false .other (fun _ => false) 0 2
      [.prop { key := .ident [98], shorthand := true, blankBefore := false,
               inObjectPattern := false },
       .prop { key := .ident [65], shorthand := false, blankBefore := false,
               inObjectPattern := false }] =
      [none, some { messageId := .sortKeysAllCaps, thisName := [65], prevName := [98],
                    overrideMessage := none, hasFix := true }] ∧
    runObject
      { order := .asc, insensitive := false, natural := false, minKeys := 2,
        allowLineSeparatedGroups := false, ignoreSingleLine := false,
        allCaps := .first, shorthand := .first, overrides := [] }
      false .other (fun _ => false) 0 2
      [.prop { key := .ident [65], shorthand := false, blankBefore := false,
               inObjectPattern := false },
       .prop { key := .ident [98], shorthand := true, blankBefore := false,
               inObjectPattern := false }] =
      [none, some { messageId := .sortKeysShorthand, thisName := [98], prevName := [65],
                    overrideMessage := none, hasFix := true }] :=
  ⟨rfl, rfl⟩

/--
C8 (amended): applying the emitted adjacent-pair swap to a two-entry
violation and re-running the engine yields no violation for that pair,
provided the violation's reason does not cross the two grouping predicates —
that is, when the reason is an override or base-order violation, or a
constant-grouping violation whose swapped pair does not violate
shorthand-grouping, or a shorthand-grouping violation for which
constant-grouping was not applicable.  (In the excluded crossing cases the
re-run reports a violation of the other grouping kind, as the counterexample
shows.)
-/
theorem claim_C8 (cfg : Config) (ui : Bool) (parent : ParentCtx) (esqMatch : Nat → Bool)
    (sL eL : Nat) (p1 p2 : PropNode) (r : Report)
    (h1pat : p1.inObjectPattern = false) (h2pat : p2.inObjectPattern = false)
    (hbb : p1.blankBefore = p2.blankBefore)
    (hrun : runObject cfg ui parent esqMatch sL eL [Entry.prop p1, Entry.prop p2] =
      [none, some r])
    (hcond : r.messageId = .sortKeysOverride ∨ r.messageId = .sortKeys ∨
      (r.messageId = .sortKeysAllCaps ∧ isValidOrderShorthandOf cfg p2 p1 ≠ some false) ∨
      (r.messageId = .sortKeysShorthand ∧
        isValidOrderAllCapsOf cfg r.prevName r.thisName = none)) :
    runObject cfg ui parent esqMatch sL eL [Entry.prop p2, Entry.prop p1] =
      [none, none] := by
  have hrun' := hrun
  simp only [runObject, runSteps, stepEntry] at hrun'
  obtain ⟨h1r, h2r, -⟩ :
      (propertyStep cfg (objectEnter cfg ui parent esqMatch sL eL
        [Entry.prop p1, Entry.prop p2]) p1).2 = none ∧
      (propertyStep cfg (propertyStep cfg (objectEnter cfg ui parent esqMatch sL eL
        [Entry.prop p1, Entry.prop p2]) p1).1 p2).2 = some r ∧ True := by
    rw [List.cons.injEq, List.cons.injEq] at hrun'
    exact ⟨hrun'.1, hrun'.2.1, trivial⟩
  have ha := propertyStep_report_anatomy h2r
  have hpres := propertyStep_preserves cfg
    (objectEnter cfg ui parent esqMatch sL eL [Entry.prop p1, Entry.prop p2]) p1
  have hig0 : (objectEnter cfg ui parent esqMatch sL eL
      [Entry.prop p1, Entry.prop p2]).ignore = false := by
    rw [← hpres.2.1]
    exact ha.2.1
  have hov0 : overrideIgnores (objectEnter cfg ui parent esqMatch sL eL
      [Entry.prop p1, Entry.prop p2]).override = false := by
    rw [← hpres.2.2]
    exact ha.2.2.1
  have hfirst := propertyStep_first cfg
    (objectEnter cfg ui parent esqMatch sL eL [Entry.prop p1, Entry.prop p2]) p1
    h1pat hig0 hov0 rfl rfl rfl
  have hst1 : (propertyStep cfg (objectEnter cfg ui parent esqMatch sL eL
      [Entry.prop p1, Entry.prop p2]) p1).1 =
      { objectEnter cfg ui parent esqMatch sL eL [Entry.prop p1, Entry.prop p2] with
          prevNode := some p1
          prevNameSkipped := (getPropertyName p1.key).isNone
          prevName := getPropertyName p1.key } := by
    rw [hfirst]
  obtain ⟨pn, hname1⟩ : ∃ n, getPropertyName p1.key = some n := by
    have hps := ha.2.2.2.1
    rw [hst1] at hps
    exact Option.isSome_iff_exists.1 hps
  obtain ⟨tn, hname2⟩ : ∃ n, getPropertyName p2.key = some n :=
    Option.isSome_iff_exists.1 ha.2.2.2.2.1
  have hmin2 : cfg.minKeys ≤ 2 := by
    have hm := ha.2.2.2.2.2.1
    rw [hpres.1] at hm
    exact hm
  have hblank1 : cfg.allowLineSeparatedGroups = false ∨
      ((propertyStep cfg (objectEnter cfg ui parent esqMatch sL eL
        [Entry.prop p1, Entry.prop p2]) p1).1.prevBlankLine = false ∧
        p2.blankBefore = false) := by
    by_cases hA : cfg.allowLineSeparatedGroups = true
    · right
      refine ⟨by rw [hst1]; rfl, ?_⟩
      by_cases hB : p2.blankBefore = true
      · exfalso
        have hnone := propertyStep_blank_none cfg
          (propertyStep cfg (objectEnter cfg ui parent esqMatch sL eL
            [Entry.prop p1, Entry.prop p2]) p1).1 p2 p1 (by rw [hst1]) hA hB
        rw [hnone] at h2r
        cases h2r
      · simpa using hB
    · left
      simpa using hA
  have hchain := propertyStep_compared cfg
    (propertyStep cfg (objectEnter cfg ui parent esqMatch sL eL
      [Entry.prop p1, Entry.prop p2]) p1).1 p2 pn tn p1
    h2pat (by rw [hpres.2.1]; exact hig0) (by rw [hpres.2.2]; exact hov0)
    (by rw [hst1]; exact hname1) hname2 (by rw [hst1])
    hblank1 (by rw [hst1]; exact hmin2)
  have hdc : decisionChain cfg
      (propertyStep cfg (objectEnter cfg ui parent esqMatch sL eL
        [Entry.prop p1, Entry.prop p2]) p1).1.override p1 p2 pn tn
      (!(propertyStep cfg (objectEnter cfg ui parent esqMatch sL eL
        [Entry.prop p1, Entry.prop p2]) p1).1.prevNameSkipped) = some r := by
    rw [← hchain]
    exact h2r
  have hnames := decisionChain_names hdc
  have hcond' : r.messageId = .sortKeysOverride ∨ r.messageId = .sortKeys ∨
      (r.messageId = .sortKeysAllCaps ∧ isValidOrderShorthandOf cfg p2 p1 ≠ some false) ∨
      (r.messageId = .sortKeysShorthand ∧ isValidOrderAllCapsOf cfg pn tn = none) := by
    rcases hcond with h | h | h | ⟨h, hh⟩
    · exact Or.inl h
    · exact Or.inr (Or.inl h)
    · exact Or.inr (Or.inr (Or.inl h))
    · refine Or.inr (Or.inr (Or.inr ⟨h, ?_⟩))
      rw [hnames.1, hnames.2] at hh
      exact hh
  have hswap := decisionChain_swap cfg
    (propertyStep cfg (objectEnter cfg ui parent esqMatch sL eL
      [Entry.prop p1, Entry.prop p2]) p1).1.override p1 p2 pn tn
    (!(propertyStep cfg (objectEnter cfg ui parent esqMatch sL eL
      [Entry.prop p1, Entry.prop p2]) p1).1.prevNameSkipped)
    (!(getPropertyName p2.key).isNone) r hdc hcond'
  -- the swapped run
  simp only [runObject, runSteps, stepEntry]
  rw [objectEnter_swap cfg ui parent esqMatch sL eL p1 p2 pn tn hname1 hname2]
  have hfirst2 := propertyStep_first cfg
    (objectEnter cfg ui parent esqMatch sL eL [Entry.prop p1, Entry.prop p2]) p2
    h2pat hig0 hov0 rfl rfl rfl
  rw [hfirst2]
  have hblank2 : cfg.allowLineSeparatedGroups = false ∨
      (({ objectEnter cfg ui parent esqMatch sL eL [Entry.prop p1, Entry.prop p2] with
          prevNode := some p2
          prevNameSkipped := (getPropertyName p2.key).isNone
          prevName := getPropertyName p2.key } : Stack).prevBlankLine = false ∧
        p1.blankBefore = false) := by
    rcases hblank1 with h | ⟨h1, h2⟩
    · exact Or.inl h
    · exact Or.inr ⟨rfl, by rw [hbb]; exact h2⟩
  have hchain2 := propertyStep_compared cfg
    { objectEnter cfg ui parent esqMatch sL eL [Entry.prop p1, Entry.prop p2] with
        prevNode := some p2
        prevNameSkipped := (getPropertyName p2.key).isNone
        prevName := getPropertyName p2.key } p1 tn pn p2
    h1pat hig0 hov0 (by simpa using hname2) hname1 rfl hblank2 (by simpa using hmin2)
  rw [hchain2]
  have hovEq : ({ objectEnter cfg ui parent esqMatch sL eL
      [Entry.prop p1, Entry.prop p2] with
        prevNode := some p2
        prevNameSkipped := (getPropertyName p2.key).isNone
        prevName := getPropertyName p2.key } : Stack).override =
      (propertyStep cfg (objectEnter cfg ui parent esqMatch sL eL
        [Entry.prop p1, Entry.prop p2]) p1).1.override := by
    rw [hpres.2.2]
  rw [show (!({ objectEnter cfg ui parent esqMatch sL eL
      [Entry.prop p1, Entry.prop p2] with
        prevNode := some p2
        prevNameSkipped := (getPropertyName p2.key).isNone
        prevName := getPropertyName p2.key } : Stack).prevNameSkipped) =
      (!(getPropertyName p2.key).isNone) from rfl]
  rw [hovEq, hswap]

/-- Witness for C8: a base-order violation `{b, a}`; the swapped object is
compliant. -/
theorem claim_C8_witness :
    runObject
      { order := .asc, insensitive := false, natural := false, minKeys := 2,
        allowLineSeparatedGroups := false, ignoreSingleLine := false,
        allCaps := .ignore, shorthand := .ignore, overrides := [] }
      false .other (fun _ => false) 0 2
      [.prop { key := .ident [97], shorthand := false, blankBefore := false,
               inObjectPattern := false },
       .prop { key := .ident [98], shorthand := false, blankBefore := false,
               inObjectPattern := false }] = [none, none] :=
  claim_C8
    { order := .asc, insensitive := false, natural := false, minKeys := 2,
      allowLineSeparatedGroups := false, ignoreSingleLine := false,
      allCaps := .ignore, shorthand := .ignore, overrides := [] }
    false .other (fun _ => false) 0 2
    { key := .ident [98], shorthand := false, blankBefore := false,
      inObjectPattern := false }
    { key := .ident [97], shorthand := false, blankBefore := false,
      inObjectPattern := false }
    { messageId := .sortKeys, thisName := [97], prevName := [98],
      overrideMessage := none, hasFix := true }
    rfl rfl rfl rfl (Or.inr (Or.inl rfl))

end SortKeysPlus